import Mathlib

/-!
Verification development for the `cluster_selection` package: a shallow
embedding of `classes.py` (`SummaryCandidate`, its nested `State`,
`SelectedCluster`) and `cluster_selection.py` (`context_expansion_generator`),
together with theorems about the embedded operations.

Modelling conventions:
* A `SentenceChain` is represented by its `chain_index` (a `Nat`); the chain
  store itself (prev/next neighbour lookup) is not part of the sources and is
  modelled from the spec, see `Env.next` / `Env.prev`.
* Python floats (cross-encoder scores, improvement densities, thresholds) are
  embedded as exact rationals.  To keep every computation kernel-reducible we
  use an explicit fraction type `Q` (integer numerator, natural denominator,
  not normalised) with value-level comparison operations; all well-formed
  values keep a positive denominator.
* Python exceptions (IndexError on bad list indices, TypeError on `None`
  indices, the explicit `raise` in `clear_timestamp`) are embedded with
  `Except PyErr`.
* The two `while True` loops of the engine receive explicit fuel; running out
  of fuel yields `none` (distinguished from normal termination `some _`).
-/

/-- Exact fraction: `num / den`.  `den` is intended to be positive; the
operations below implement ordinary rational arithmetic under that
assumption and never normalise. -/
structure Q where
  num : Int
  den : Nat
deriving DecidableEq

instance : Inhabited Q := ⟨⟨0, 1⟩⟩

namespace Q

/-- Embed an integer. -/
def ofInt (n : Int) : Q := ⟨n, 1⟩

/-- Subtraction by cross multiplication. -/
def sub (a b : Q) : Q := ⟨a.num * (b.den : Int) - b.num * (a.den : Int), a.den * b.den⟩

/-- Multiplication. -/
def mul (a b : Q) : Q := ⟨a.num * b.num, a.den * b.den⟩

/-- Division by a natural number (used for `score_gain / added_length`). -/
def divNat (a : Q) (n : Nat) : Q := ⟨a.num, a.den * n⟩

/-- Value-level strict order (cross multiplication; valid for positive
denominators). -/
def lt (a b : Q) : Bool := decide (a.num * (b.den : Int) < b.num * (a.den : Int))

/-- Value-level non-strict order. -/
def le (a b : Q) : Bool := decide (a.num * (b.den : Int) ≤ b.num * (a.den : Int))

/-- Value-level equality. -/
def eqv (a b : Q) : Bool := decide (a.num * (b.den : Int) = b.num * (a.den : Int))

/-- Value-level `0 ≤ a` (valid for positive denominators). -/
def nonneg (a : Q) : Bool := decide (0 ≤ a.num)

/-- Floor of the represented rational. -/
def floor (a : Q) : Int := Int.fdiv a.num (a.den : Int)

/-- Round to the nearest integer, ties to even — the behaviour of Python's
built-in `round` on exact values. -/
def roundHE (a : Q) : Int :=
  let f := a.floor
  let r2 : Int := 2 * (a.num - f * (a.den : Int))
  if r2 < (a.den : Int) then f
  else if (a.den : Int) < r2 then f + 1
  else if f % 2 = 0 then f else f + 1

/-- Python's `round(x, 3)`: round to three decimal places, ties to even. -/
def rnd3 (a : Q) : Q := ⟨roundHE ⟨a.num * 1000, a.den⟩, 1000⟩

/-- The value represented by a fraction, as a Mathlib rational. -/
def val (a : Q) : Rat := (a.num : Rat) / (a.den : Rat)

/-- Well-formedness: the denominator is positive. -/
def WF (a : Q) : Prop := 0 < a.den

end Q

/-- Python exceptions arising in the embedded code. -/
inductive PyErr where
  /-- IndexError: list index out of range (or `[...][0]` on an empty list). -/
  | indexError
  /-- TypeError: using `None` where an integer index is required, or an
  unsupported comparison. -/
  | typeError
  /-- KeyError: missing dictionary key. -/
  | keyError
  /-- The explicit `raise Exception(...)` in `clear_timestamp`. -/
  | exception
deriving DecidableEq

deriving instance DecidableEq for Except

/-- Turn an optional value into an `Except`, with the given error for `none`. -/
def orErr (o : Option α) (e : PyErr) : Except PyErr α :=
  match o with
  | some a => Except.ok a
  | none => Except.error e

/-- Resolve a Python list index (negative indices count from the end) to a
position, or `none` when out of range. -/
def pyIdx (len : Nat) (i : Int) : Option Nat :=
  if 0 ≤ i then (if i < (len : Int) then some i.toNat else none)
  else (if 0 ≤ i + (len : Int) then some (i + (len : Int)).toNat else none)

/-- Python `l[i]` for an integer index. -/
def pyGet (l : List α) (i : Int) : Option α :=
  (pyIdx l.length i).bind (fun j => l.get? j)

/-- Replace the element at (resolved, in-range) position `j` of a list. -/
def updAt : List α → Nat → (α → α) → List α
  | [], _, _ => []
  | a :: l, 0, f => f a :: l
  | a :: l, n+1, f => a :: updAt l n f

/-- Stable insertion of an element into a sorted list: the new element goes
before the first element it is `le`-related to.  Inserting earlier elements
into the sorted suffix reproduces the output of Python's stable sort. -/
def sinsert (le : α → α → Bool) (x : α) : List α → List α
  | [] => [x]
  | y :: ys => if le x y then x :: y :: ys else y :: sinsert le x ys

/-- Stable insertion sort; agrees with Python's `sorted` for any total
preorder `le`. -/
def ssort (le : α → α → Bool) : List α → List α
  | [] => []
  | x :: xs => sinsert le x (ssort le xs)

/-- Growth actions recorded in a state's `actions` list (the strings
`"left n"`, `"right n"`, `"bidirectional n"` in the source). -/
inductive Act where
  | left (n : Nat)
  | right (n : Nat)
  | bidirectional (n : Nat)
deriving DecidableEq

/-- `SummaryCandidate.State`: one context-expansion snapshot. -/
structure SummaryCandidate.State where
  chains : List Nat
  score : Q
  actions : List Act
  timestamp : Int
  improvement_score : Q
deriving DecidableEq

instance : Inhabited SummaryCandidate.State := ⟨⟨[], default, [], 0, default⟩⟩

namespace SummaryCandidate.State

/-- `State.from_state`: copy an existing state, optionally appending one
action.  (`chains` is copied with a slice, so the new state's chain list is
independent of the parent's.) -/
def from_state (s : SummaryCandidate.State) (a : Option Act) : SummaryCandidate.State :=
  { chains := s.chains
    score := s.score
    actions := s.actions ++ (match a with | some act => [act] | none => [])
    timestamp := s.timestamp
    improvement_score := s.improvement_score }

/-- `State.index_range` as the list of its elements: Python's
`tuple(range(first_index, last_index + 1))`. -/
def index_range (s : SummaryCandidate.State) : Option (List Nat) :=
  match s.chains.head?, s.chains.getLast? with
  | some a, some b => some (List.range' a (b + 1 - a))
  | _, _ => none

end SummaryCandidate.State

/-- `SummaryCandidate`: an anchor chain with an append-only history of
states.  `selected_state` is a Python int or `None`: `some (-1)` is the
"latest" sentinel. -/
structure SummaryCandidate where
  chain : Nat
  selected_state : Option Int
  history : List SummaryCandidate.State
  expandable : Bool
deriving DecidableEq

/-- The environment: everything the candidate code calls that lives outside
`classes.py` / `cluster_selection.py`. -/
structure Env where
  /-- Modelled from the spec: the Unit Sequence is a finite ordered run of
  units with contiguous indices `0, …, L-1` within one document. -/
  L : Nat
  /-- Modelled from the spec: the relevance oracle
  `score(query, sequence_of_units) -> float`; embeds
  `RelevanceEvaluator.predict(chains, join=True)` for the fixed query. -/
  oracle : List Nat → Q
  /-- Modelled from the spec: the word count of the concatenated text of a
  window (`len("".join(texts).split())` in the source's helpers). -/
  wordCount : List Nat → Nat

namespace Env

/-- Modelled from the spec: `SentenceChain.next(n, force_list=True)` — up to
`n` units to the right, fewer at the sequence boundary. -/
def next (env : Env) (i n : Nat) : List Nat :=
  (List.range' (i + 1) n).filter (fun j => decide (j < env.L))

/-- Modelled from the spec: `SentenceChain.prev(n, force_list=True)` — up to
`n` units to the left (in ascending order), fewer at the boundary. -/
def prev (_env : Env) (i n : Nat) : List Nat :=
  List.range' (i - min i n) (min i n)

end Env

namespace SummaryCandidate

/-- `SummaryCandidate.__init__`. -/
def init (chain : Nat) (score : Q) : SummaryCandidate :=
  { chain := chain
    selected_state := some (-1)
    history := [{ chains := [chain], score := score, actions := [], timestamp := 0,
                  improvement_score := default }]
    expandable := true }

/-- The `context` property: `history[selected_state]`. -/
def context (c : SummaryCandidate) : Option SummaryCandidate.State :=
  c.selected_state.bind (fun i => pyGet c.history i)

/-- The `context` property as an `Except` (TypeError on a `None` index,
IndexError on an out-of-range one). -/
def contextE (c : SummaryCandidate) : Except PyErr SummaryCandidate.State :=
  match c.selected_state with
  | none => Except.error PyErr.typeError
  | some i => orErr (pyGet c.history i) PyErr.indexError

/-- The `score` property: `context.score`. -/
def score? (c : SummaryCandidate) : Option Q := c.context.map (fun s => s.score)

/-- The `score` property as an `Except`. -/
def scoreE (c : SummaryCandidate) : Except PyErr Q :=
  (c.contextE).map (fun s => s.score)

/-- Arguments of `optimize` (with the source's defaults). -/
structure OptArgs where
  stop_expansion : Bool
  timestamp : Option Int
  constraints : Option (List Nat)
  threshold : Q
deriving DecidableEq

/-- `optimize` with all-default arguments except the ones a call site sets. -/
def OptArgs.dflt : OptArgs :=
  { stop_expansion := false, timestamp := none, constraints := none,
    threshold := ⟨1, 100⟩ }

/-- First maximum of `key` over a list (Python's `max(temp, key=...)`:
an element is replaced only by a strictly larger one). -/
def argmaxFirst (key : Nat → Q) : List Nat → Option Nat
  | [] => none
  | i :: is => some (is.foldl (fun best j => if Q.lt (key best) (key j) then j else best) i)

/-- The filtered index list `temp` built at the top of `optimize`. -/
def optTemp (c : SummaryCandidate) (args : SummaryCandidate.OptArgs) : List Nat :=
  let t0 : List Nat :=
    match args.timestamp with
    | some t => (c.history.enum.filter (fun p => decide (p.2.timestamp = t))).map (fun p => p.1)
    | none => List.range c.history.length
  match args.constraints with
  | some cs =>
      t0.filter (fun i =>
        !((c.history.getD i default).chains.any (fun ch => decide (ch ∈ cs))))
  | none => t0

/-- `SummaryCandidate.optimize`: select the best state among the filtered
ones; returns the updated candidate and the return value (`None` when no
state passes the filters). -/
def optimize (c : SummaryCandidate) (args : OptArgs) :
    Except PyErr (SummaryCandidate × Option Nat) := do
  let temp := optTemp c args
  let c1 ←
    match c.selected_state with
    | none => pure c
    | some sel => do
        let j ← orErr (pyIdx c.history.length sel) PyErr.indexError
        pure { c with history :=
                 updAt c.history j (fun s => { s with improvement_score := args.threshold }) }
  match argmaxFirst (fun i => (c1.history.getD i default).improvement_score) temp with
  | some new_state =>
      let c2 :=
        if args.stop_expansion && (c1.selected_state == some (new_state : Int)) then
          { c1 with expandable := false }
        else c1
      pure ({ c2 with selected_state := some (new_state : Int) }, some new_state)
  | none =>
      pure ({ c1 with expandable := false }, none)

/-- Resolve the `branch_from` argument of a growth operation exactly as the
source does (`None` means the selected state, with `-1` converted to the last
index). -/
def resolveBranch (c : SummaryCandidate) (branch_from : Option Int) : Option Int :=
  match branch_from with
  | none =>
      (match c.selected_state with
       | none => none
       | some s => if s = -1 then some ((c.history.length : Int) - 1) else some s)
  | some b => some b

/-- Shared tail of the three growth operations: append the new state built
from the parent at `bf` with the given chain list, then set its score and
(if the window's word count is positive) its improvement density.  The
parent score used for the density is read from the post-append list, as in
the source. -/
def growFinish (env : Env) (c : SummaryCandidate) (bf : Int)
    (st : SummaryCandidate.State) : Except PyErr SummaryCandidate := do
  let st := { st with score := env.oracle st.chains }
  let hist1 := c.history ++ [st]
  let parent2 ← orErr (pyGet hist1 bf) PyErr.indexError
  let added := env.wordCount st.chains
  let st :=
    if 0 < added then
      { st with improvement_score := Q.rnd3 (Q.divNat (Q.sub st.score parent2.score) added) }
    else st
  pure { c with history := c.history ++ [st] }

/-- `SummaryCandidate.add_right_context`. -/
def add_right_context (env : Env) (c : SummaryCandidate) (n : Int)
    (branch_from : Option Int) (timestamp : Int) : Except PyErr SummaryCandidate := do
  if n ≤ 0 || !c.expandable then pure c else do
  let bf ← orErr (resolveBranch c branch_from) PyErr.typeError
  let parent ← orErr (pyGet c.history bf) PyErr.indexError
  let st := SummaryCandidate.State.from_state parent (some (Act.right n.toNat))
  let st := { st with timestamp := timestamp }
  let lastc ← orErr st.chains.getLast? PyErr.indexError
  let st := { st with chains := st.chains ++ env.next lastc n.toNat }
  growFinish env c bf st

/-- `SummaryCandidate.add_left_context`. -/
def add_left_context (env : Env) (c : SummaryCandidate) (n : Int)
    (branch_from : Option Int) (timestamp : Int) : Except PyErr SummaryCandidate := do
  if n ≤ 0 || !c.expandable then pure c else do
  let bf ← orErr (resolveBranch c branch_from) PyErr.typeError
  let parent ← orErr (pyGet c.history bf) PyErr.indexError
  let st := SummaryCandidate.State.from_state parent (some (Act.left n.toNat))
  let st := { st with timestamp := timestamp }
  let headc ← orErr st.chains.head? PyErr.indexError
  let st := { st with chains := env.prev headc n.toNat ++ st.chains }
  growFinish env c bf st

/-- `SummaryCandidate.add_bidirectional_context` (extend right from the old
last chain, then prepend left of the — unchanged — first chain). -/
def add_bidirectional_context (env : Env) (c : SummaryCandidate) (n : Int)
    (branch_from : Option Int) (timestamp : Int) : Except PyErr SummaryCandidate := do
  if n ≤ 0 || !c.expandable then pure c else do
  let bf ← orErr (resolveBranch c branch_from) PyErr.typeError
  let parent ← orErr (pyGet c.history bf) PyErr.indexError
  let st := SummaryCandidate.State.from_state parent (some (Act.bidirectional n.toNat))
  let st := { st with timestamp := timestamp }
  let lastc ← orErr st.chains.getLast? PyErr.indexError
  let st := { st with chains := st.chains ++ env.next lastc n.toNat }
  let headc ← orErr st.chains.head? PyErr.indexError
  let st := { st with chains := env.prev headc n.toNat ++ st.chains }
  growFinish env c bf st

/-- Sorted list of the distinct elements of a list of integers (Python's
`sorted(set(...))`). -/
def sortedSet (l : List Int) : List Int :=
  ssort (fun a b => decide (a ≤ b)) l.dedup

/-- `SummaryCandidate.clear_history`: keep only the selected state and the
`exceptions` indices, remapping `selected_state`.  The `selected_state =
None` case is only exception-free for empty `exceptions` (otherwise Python's
`sorted` raises a TypeError comparing `None` with ints). -/
def clear_history (c : SummaryCandidate) (exceptions : List Int) :
    Except PyErr SummaryCandidate := do
  match c.selected_state with
  | none =>
      if exceptions.isEmpty then
        pure { c with history := [], selected_state := some 0 }
      else Except.error PyErr.typeError
  | some sel0 =>
      let hadLatest := sel0 = -1
      let sel : Int := if hadLatest then (c.history.length : Int) - 1 else sel0
      let preserved := sortedSet (exceptions ++ [sel])
      let hist1 :=
        (c.history.enum.filter (fun p => decide ((p.1 : Int) ∈ preserved))).map (fun p => p.2)
      if hadLatest then
        pure { c with history := hist1, selected_state := some (-1) }
      else
        let r := if sel ∈ preserved then preserved.indexOf sel else 0
        pure { c with history := hist1, selected_state := some (r : Int) }

/-- `SummaryCandidate.clear_timestamp`: drop the history entries carrying the
given timestamp; raises when the selected state itself carries it. -/
def clear_timestamp (c : SummaryCandidate) (t : Int) :
    Except PyErr SummaryCandidate := do
  let ctx ← c.contextE
  if ctx.timestamp = t then Except.error PyErr.exception else do
  let hadLatest := c.selected_state == some (-1)
  let c1 :=
    if hadLatest then { c with selected_state := some ((c.history.length : Int) - 1) } else c
  let old := c1.history
  let hist1 := old.filter (fun s => !(decide (s.timestamp = t)))
  if hadLatest then
    pure { c1 with history := hist1, selected_state := some (-1) }
  else do
    let s ← orErr c1.selected_state PyErr.typeError
    let removedBefore : Int :=
      ((old.enum.filter (fun p => decide (p.2.timestamp = t) && decide ((p.1 : Int) < s))).length : Int)
    let s1 := s - removedBefore
    let s2 := max 0 (min s1 ((hist1.length : Int) - 1))
    pure { c1 with history := hist1, selected_state := some s2 }

end SummaryCandidate

/-- `SelectedCluster`: only the `candidates` list takes part in the modelled
operations (the raw `cluster`, `sim` and `evaluator` fields are external
data; the evaluator is the environment's oracle). -/
structure SelectedCluster where
  candidates : List SummaryCandidate
deriving DecidableEq

namespace SelectedCluster

/-- `remove_duplicate_candidates`: keep the first candidate for each
`tuple(index_range)` key. -/
def remove_duplicate_candidates (cl : SelectedCluster) :
    Except PyErr SelectedCluster := do
  let step := fun (acc : List (List Nat) × List SummaryCandidate) (c : SummaryCandidate) => do
    let ctx ← c.contextE
    let key ← orErr ctx.index_range PyErr.indexError
    if key ∈ acc.1 then pure acc else pure (key :: acc.1, acc.2 ++ [c])
  let acc ← cl.candidates.foldlM step ([], [])
  pure ⟨acc.2⟩

/-- `rescore_candidates`: re-run the oracle on each candidate's selected
state (`history[selected_state].score = predict(...)`). -/
def rescore_candidates (env : Env) (cl : SelectedCluster) :
    Except PyErr SelectedCluster := do
  let cands ← cl.candidates.mapM (fun c => do
    let s ← orErr c.selected_state PyErr.typeError
    let j ← orErr (pyIdx c.history.length s) PyErr.indexError
    pure { c with history :=
             updAt c.history j (fun st => { st with score := env.oracle st.chains }) })
  pure ⟨cands⟩

/-- The sort relation of `rerank_candidates`: Python's
`sorted(key=lambda x: (x.score, 6666 - x.chain.chain_index), reverse=True)`
keeps `x` before `y` when `x`'s key is lexicographically at least `y`'s. -/
def rerankLE (x y : SummaryCandidate × Q) : Bool :=
  let tx : Int := 6666 - (x.1.chain : Int)
  let ty : Int := 6666 - (y.1.chain : Int)
  Q.lt y.2 x.2 || (Q.eqv y.2 x.2 && decide (ty ≤ tx))

/-- `rerank_candidates`: stable sort by score descending, anchor index
ascending as the tie-break. -/
def rerank_candidates (cl : SelectedCluster) : Except PyErr SelectedCluster := do
  let pairs ← cl.candidates.mapM (fun c => do
    let s ← c.scoreE
    pure (c, s))
  pure ⟨(ssort rerankLE pairs).map (fun p => p.1)⟩

/-- Python `l[k:]` for an integer `k`. -/
def pyDropFrom (l : List α) (k : Int) : List α :=
  if 0 ≤ k then l.drop k.toNat else l.drop (((l.length : Int) + k).toNat)

/-- One step of the `merge_candidates` scan: either absorb `candidate` into
`prev` or emit `prev` and continue from `candidate`. -/
def mergeStep (threshold : Q) (acc : List SummaryCandidate × SummaryCandidate)
    (c : SummaryCandidate) : Except PyErr (List SummaryCandidate × SummaryCandidate) := do
  let keep := acc.1
  let prev := acc.2
  let pscore ← prev.scoreE
  let cscore ← c.scoreE
  if Q.nonneg (Q.mul (Q.sub pscore threshold) (Q.sub cscore threshold)) then
    let pctx ← prev.contextE
    let cctx ← c.contextE
    let pfirst ← orErr pctx.chains.head? PyErr.indexError
    let plast ← orErr pctx.chains.getLast? PyErr.indexError
    let cfirst ← orErr cctx.chains.head? PyErr.indexError
    let clast ← orErr cctx.chains.getLast? PyErr.indexError
    let pstop := plast + 1
    let cstop := clast + 1
    if pfirst ≤ cfirst ∧ cfirst < pstop then
      let extra : Int := (cstop : Int) - (pstop : Int)
      let add := pyDropFrom cctx.chains ((cctx.chains.length : Int) - extra)
      let s ← orErr prev.selected_state PyErr.typeError
      let j ← orErr (pyIdx prev.history.length s) PyErr.indexError
      let h2 := updAt prev.history j (fun st => { st with chains := st.chains ++ add })
      pure (keep, { prev with history := h2 })
    else if cfirst = pstop then
      let s ← orErr prev.selected_state PyErr.typeError
      let j ← orErr (pyIdx prev.history.length s) PyErr.indexError
      let h2 := updAt prev.history j (fun st => { st with chains := st.chains ++ cctx.chains })
      pure (keep, { prev with history := h2 })
    else
      pure (keep ++ [prev], c)
  else
    pure (keep ++ [prev], c)

/-- The sort relation used at the top of `merge_candidates`:
`sorted(key=lambda x: x.first_index)`, ascending and stable. -/
def firstIndexLE (x y : SummaryCandidate × Nat) : Bool := decide (x.2 ≤ y.2)

/-- `SelectedCluster.merge_candidates`: sort by start index, merge
overlapping / adjacent candidates whose scores sit on the same side of the
threshold, then rescore and rerank.  Reads `candidates[0]` unconditionally. -/
def merge_candidates (env : Env) (cl : SelectedCluster) (threshold : Q) :
    Except PyErr SelectedCluster := do
  let pairs ← cl.candidates.mapM (fun c => do
    let ctx ← c.contextE
    let f ← orErr ctx.chains.head? PyErr.indexError
    pure (c, f))
  let sorted := (ssort firstIndexLE pairs).map (fun p => p.1)
  let first ← orErr sorted.head? PyErr.indexError
  let acc ← (sorted.drop 1).foldlM (mergeStep threshold) ([], first)
  let cl1 : SelectedCluster := ⟨acc.1 ++ [acc.2]⟩
  let cl2 ← cl1.rescore_candidates env
  cl2.rerank_candidates

end SelectedCluster

/-! The arbitration engine: `context_expansion_generator`. -/

/-- Lookup in the association-list model of a Python dict. -/
def alook (m : List (Nat × Nat)) (k : Nat) : Option Nat :=
  (m.find? (fun p => p.1 == k)).map (fun p => p.2)

/-- Overwrite a key in the association-list model of a Python dict. -/
def aset (m : List (Nat × Nat)) (k v : Nat) : List (Nat × Nat) :=
  (k, v) :: m.filter (fun p => !(p.1 == k))

/-- `dict.keys()` (membership is all the engine uses of it). -/
def akeys (m : List (Nat × Nat)) : List Nat := m.map (fun p => p.1)

/-- Add to the set model of `seen_chains`. -/
def sadd (s : List Nat) (x : Nat) : List Nat := if x ∈ s then s else x :: s

/-- The mutable state of one engine round. -/
structure RoundSt where
  candidates : List SummaryCandidate
  seen : List Nat
  forbids : List (Nat × Nat)
  marked : List Bool
deriving DecidableEq

namespace RoundSt

/-- Read the candidate at a position. -/
def cand (st : RoundSt) (pos : Nat) : Except PyErr SummaryCandidate :=
  orErr (st.candidates.get? pos) PyErr.indexError

/-- Write the candidate at a position. -/
def setCand (st : RoundSt) (pos : Nat) (c : SummaryCandidate) : RoundSt :=
  { st with candidates := updAt st.candidates pos (fun _ => c) }

/-- Mark a position for deletion. -/
def mark (st : RoundSt) (pos : Nat) : RoundSt :=
  { st with marked := updAt st.marked pos (fun _ => true) }

end RoundSt

/-- `[i for i, s in enumerate(history) if s.timestamp == timestamp][0]`. -/
def firstIdxWithTs (h : List SummaryCandidate.State) (t : Int) : Option Nat :=
  ((h.enum.filter (fun p => decide (p.2.timestamp = t))).map (fun p => p.1)).head?

/-- One iteration of the conflict-resolution `while True` loop.  `Sum.inl`
continues the loop, `Sum.inr` leaves it (`break`).  With three or more
forbidden chains no branch applies and the body falls through unchanged. -/
def conflictStep (thr : Q) (timestamp : Int) (pos : Nat) (st : RoundSt) :
    Except PyErr (RoundSt ⊕ RoundSt) := do
  let cand ← st.cand pos
  let ctx ← cand.contextE
  let forbidden := ctx.chains.filter (fun c => decide (c ∈ st.seen))
  match forbidden with
  | [] => pure (Sum.inr st)
  | [f0] =>
      let owner ← orErr (alook st.forbids f0) PyErr.keyError
      let other ← st.cand owner
      let oscore ← other.scoreE
      if Q.lt oscore ctx.score then
        pure (Sum.inr { (st.mark owner) with forbids := aset st.forbids f0 pos })
      else do
        let initTs ← orErr (firstIdxWithTs cand.history timestamp) PyErr.indexError
        let s ← orErr cand.selected_state PyErr.typeError
        let j ← orErr (pyIdx cand.history.length s) PyErr.indexError
        let cand1 := { cand with history := cand.history.eraseIdx j, selected_state := none }
        let r ← cand1.optimize { SummaryCandidate.OptArgs.dflt with
                                   timestamp := some timestamp, threshold := thr }
        let cand2 := r.1
        let cand3 :=
          if cand2.selected_state == some (initTs : Int) then
            { cand2 with expandable := false }
          else cand2
        pure (Sum.inl (st.setCand pos cand3))
  | [f0, f1] =>
      let p1 ← orErr (alook st.forbids f0) PyErr.keyError
      let p2 ← orErr (alook st.forbids f1) PyErr.keyError
      let o1 ← st.cand p1
      let o2 ← st.cand p2
      let s1 ← o1.scoreE
      let s2 ← o2.scoreE
      if Q.lt s1 ctx.score && Q.lt s2 ctx.score then
        let st1 := (st.mark p1).mark p2
        let st2 := { st1 with forbids := aset (aset st1.forbids f0 pos) f1 pos }
        pure (Sum.inr st2)
      else do
        let initTs ← orErr (firstIdxWithTs cand.history timestamp) PyErr.indexError
        let cand1 := { cand with selected_state := some (initTs : Int), expandable := false }
        pure (Sum.inr (st.setCand pos cand1))
  | _ :: _ :: _ :: _ => pure (Sum.inl st)

/-- The conflict-resolution loop with fuel; exiting normally needs no fuel,
each repeated iteration consumes one unit.  `none` means the fuel ran out. -/
def conflictLoop (thr : Q) (timestamp : Int) (pos : Nat) :
    Nat → RoundSt → Except PyErr (Option RoundSt)
  | 0, st => do
    match ← conflictStep thr timestamp pos st with
    | Sum.inr st1 => pure (some st1)
    | Sum.inl _ => pure none
  | f + 1, st => do
    match ← conflictStep thr timestamp pos st with
    | Sum.inr st1 => pure (some st1)
    | Sum.inl st1 => conflictLoop thr timestamp pos f st1

/-- Claim every chain of the list for `pos`, unconditionally overwriting the
owner (the non-expandable candidate's path, lines 99–101 of the source). -/
def claimAll (chains : List Nat) (pos : Nat) (st : RoundSt) : RoundSt :=
  chains.foldl
    (fun a c => { a with seen := sadd a.seen c, forbids := aset a.forbids c pos }) st

/-- Claim only the not-yet-seen chains for `pos` (lines 182–185). -/
def claimNew (chains : List Nat) (pos : Nat) (st : RoundSt) : RoundSt :=
  chains.foldl
    (fun a c =>
      if c ∈ a.seen then a
      else { a with seen := sadd a.seen c, forbids := aset a.forbids c pos }) st

/-- Backward-compatibility enforcement (lines 191–200): for each chain of the
final context, when the previous round's owner sits strictly below `pos`
(the walrus test also skips a falsy position 0), force that owner to
re-optimize away from everything claimed so far; mark it when it has no
alternative. -/
def enforcePrev (thr : Q) (pos : Nat) (prevForbids : List (Nat × Nat))
    (chains : List Nat) (st : RoundSt) : Except PyErr RoundSt :=
  chains.foldlM
    (fun a ch => do
      match alook prevForbids ch with
      | none => pure a
      | some p =>
          if p ≠ 0 ∧ pos < p then do
            let bad ← a.cand p
            let r ← bad.optimize { SummaryCandidate.OptArgs.dflt with
                                     constraints := some (akeys a.forbids), threshold := thr }
            let a1 := a.setCand p r.1
            match r.2 with
            | none => pure (a1.mark p)
            | some _ => pure a1
          else pure a)
    st

/-- Process one candidate of a round (the body of the `for pos, candidate`
loop).  Returns `none` when the conflict loop's fuel ran out, otherwise the
updated round state and the updated `expanded` flag. -/
def processCandidate (env : Env) (thr : Q) (timestamp : Int)
    (prevForbids : Option (List (Nat × Nat))) (innerFuel : Nat) (pos : Nat)
    (st : RoundSt) (expanded : Bool) :
    Except PyErr (Option (RoundSt × Bool)) := do
  let cand ← st.cand pos
  if st.marked.getD pos false then pure (some (st, expanded)) else do
  if !cand.expandable then do
    let ctx ← cand.contextE
    pure (some (claimAll ctx.chains pos st, expanded))
  else do
  if cand.chain ∈ st.seen then pure (some (st.mark pos, expanded)) else do
  let cand :=
    if cand.selected_state == some (-1) then
      { cand with selected_state := some ((cand.history.length : Int) - 1) }
    else cand
  let s ← orErr cand.selected_state PyErr.typeError
  let j ← orErr (pyIdx cand.history.length s) PyErr.indexError
  let h2 := updAt cand.history j (fun stt => { stt with timestamp := timestamp })
  let cand := { cand with history := h2 }
  let ctx ← cand.contextE
  let cand ←
    match ctx.actions.getLast? with
    | none => do
        let bp := cand.selected_state
        let c1 ← cand.add_left_context env 1 none timestamp
        let c2 ← c1.add_right_context env 1 bp timestamp
        c2.add_bidirectional_context env 1 bp timestamp
    | some (Act.bidirectional _) => do
        let bp := cand.selected_state
        let c1 ← cand.add_left_context env 1 none timestamp
        let c2 ← c1.add_right_context env 1 bp timestamp
        c2.add_bidirectional_context env 1 bp timestamp
    | some (Act.left _) => cand.add_left_context env 1 none timestamp
    | some (Act.right _) => cand.add_right_context env 1 none timestamp
  let r ← cand.optimize { SummaryCandidate.OptArgs.dflt with
                            stop_expansion := true, timestamp := some timestamp,
                            threshold := thr }
  let st := st.setCand pos r.1
  match ← conflictLoop thr timestamp pos innerFuel st with
  | none => pure none
  | some st => do
      let cand ← st.cand pos
      let cand ← cand.clear_timestamp (timestamp - 1)
      let st := st.setCand pos cand
      let ctx ← cand.contextE
      let st := claimNew ctx.chains pos st
      let st ←
        match prevForbids with
        | none => pure st
        | some pf => enforcePrev thr pos pf ctx.chains st
      let candF ← st.cand pos
      pure (some (st, expanded || candF.expandable))

/-- One full round of the engine: process every candidate in priority order,
delete the marked ones, deduplicate, rerank, and rebuild the ownership map
for the next round.  The emitted snapshot (`yield print_candidates(...)`) is
display-only and carries no state.  Returns `none` on fuel exhaustion. -/
def processRound (env : Env) (thr : Q) (timestamp : Int)
    (prevForbids : Option (List (Nat × Nat))) (innerFuel : Nat)
    (cl : SelectedCluster) :
    Except PyErr (Option (SelectedCluster × Bool × List (Nat × Nat))) := do
  let n := cl.candidates.length
  let st0 : RoundSt := ⟨cl.candidates, [], [], List.replicate n false⟩
  let res ← (List.range n).foldlM
    (fun (acc : Option (RoundSt × Bool)) pos => do
      match acc with
      | none => pure none
      | some (st, ex) => processCandidate env thr timestamp prevForbids innerFuel pos st ex)
    (some (st0, false))
  match res with
  | none => pure none
  | some (st, expanded) => do
      let kept := (st.candidates.enum.filter
        (fun p => !(st.marked.getD p.1 false))).map (fun p => p.2)
      let cl1 ← SelectedCluster.remove_duplicate_candidates ⟨kept⟩
      let cl2 ← cl1.rerank_candidates
      let pf ← cl2.candidates.enum.foldlM
        (fun (m : List (Nat × Nat)) p => do
          let ctx ← p.2.contextE
          pure (ctx.chains.foldl (fun m2 ch => aset m2 ch p.1) m))
        []
      pure (some (cl2, expanded, pf))

/-- The engine's outer `while True` loop, with fuel: run rounds until a round
reports no expansion, then clear every survivor's history.  Returns the
final cluster and the number of rounds executed. -/
def engineLoop (env : Env) (thr : Q) (innerFuel : Nat) :
    Nat → Int → Option (List (Nat × Nat)) → SelectedCluster →
    Nat → Except PyErr (Option (SelectedCluster × Nat))
  | 0, _, _, _, _ => pure none
  | f + 1, timestamp, pf, cl, rounds => do
    match ← processRound env thr timestamp pf innerFuel cl with
    | none => pure none
    | some (cl1, expanded, pf1) =>
        if expanded then
          engineLoop env thr innerFuel f (timestamp + 1) (some pf1) cl1 (rounds + 1)
        else do
          let cands ← cl1.candidates.mapM (fun c => c.clear_history [])
          pure (some (⟨cands⟩, rounds + 1))

/-- `context_expansion_generator`, run to completion: the sequence of rounds
followed by the final history pruning. -/
def context_expansion_generator (env : Env) (cl : SelectedCluster) (thr : Q)
    (outerFuel innerFuel : Nat) : Except PyErr (Option (SelectedCluster × Nat)) :=
  engineLoop env thr innerFuel outerFuel 0 none cl 0


/-! Concrete instances for the engine-level claims.

`cexEnv` / `cexCluster` describe a seven-unit document and an initial cluster
of three freshly seeded candidates (anchors 1, 6 and 4, seed scores 5.0, 4.0
and 3.0, sorted by score as `evaluate_chains` produces them); the oracle
assigns each contiguous window the tabulated score.  Running the engine on
this input converges normally after three rounds, yet leaves two surviving
candidates — anchored at 6 and at 4 — whose selected states `[5, 6]` and
`[4, 5]` share unit 5: in round 1 the candidate at 4 is squeezed by the
claims of the candidate at 6, and the two-conflicts branch reverts it to its
round-start state `[4, 5]` — which still contains the claimed unit 5 — marks
it non-expandable and leaves the loop without re-checking that state. -/

def cexScores : List ((Nat × Nat) × Int) :=
  [((1,1), 5000), ((6,6), 4000), ((4,4), 3000),
   ((0,1), 4800), ((1,2), 6000), ((0,2), 5100),
   ((5,6), 4900),
   ((3,4), 3800), ((4,5), 3100), ((3,5), 3050),
   ((1,3), 6900), ((4,6), 3500), ((1,4), 6000)]

/-- The relevance oracle of the counterexample: a window's score is looked up
by its first and last unit index (all windows arising in the run are
contiguous). -/
def cexOracle : List Nat → Q := fun l =>
  match l.head?, l.getLast? with
  | some a, some b =>
      match cexScores.lookup (a, b) with
      | some v => ⟨v, 1000⟩
      | none => ⟨0, 1000⟩
  | _, _ => ⟨0, 1⟩

def cexEnv : Env := ⟨7, cexOracle, fun l => l.length⟩

def cexCluster : SelectedCluster :=
  ⟨[SummaryCandidate.init 1 ⟨5000, 1000⟩,
    SummaryCandidate.init 6 ⟨4000, 1000⟩,
    SummaryCandidate.init 4 ⟨3000, 1000⟩]⟩

def cexFinal : SelectedCluster := { candidates := [{ chain := 1, selected_state := some 0, history := [{ chains := [1, 2, 3], score := { num := 6900, den := 1000 }, actions := [Act.right 1, Act.right 1], timestamp := 2, improvement_score := { num := 1, den := 100 } }], expandable := false }, { chain := 6, selected_state := some 0, history := [{ chains := [5, 6], score := { num := 4900, den := 1000 }, actions := [Act.left 1], timestamp := 1, improvement_score := { num := 1, den := 100 } }], expandable := false }, { chain := 4, selected_state := some 0, history := [{ chains := [4, 5], score := { num := 3100, den := 1000 }, actions := [Act.right 1], timestamp := 1, improvement_score := { num := 1, den := 100 } }], expandable := false }] }

/-- Pairwise disjointness of a list of unit-index sets. -/
def selectedDisjointAux : List (List Nat) → Bool
  | [] => true
  | x :: xs => (xs.all (fun y => y.all (fun c => !(c ∈ x)))) && selectedDisjointAux xs

/-- Whether the selected states of a cluster's candidates are pairwise
disjoint (the spec's no-overlap invariant). -/
def selectedDisjoint (cl : SelectedCluster) : Bool :=
  selectedDisjointAux (cl.candidates.map (fun c => ((c.context).map (fun s => s.chains)).getD []))

set_option maxRecDepth 100000

/-- C1: the no-overlap invariant fails on the code.  The engine, run on the
three-candidate cluster `cexCluster`, converges normally (three rounds,
normal termination, no fuel exhaustion), yet two distinct surviving
candidates — anchored at 6 and 4 — have selected states `[5, 6]` and
`[4, 5]` sharing unit index 5, so the surviving candidates' unit-index sets
are not pairwise disjoint. -/
theorem context_expansion_overlap_after_convergence :
    context_expansion_generator cexEnv cexCluster ⟨1, 100⟩ 10 10 =
      Except.ok (some (cexFinal, 3)) ∧ selectedDisjoint cexFinal = false := by
  constructor
  · decide
  · decide

/-- An environment with no relevant structure, for the empty-cluster run. -/
def emptyEnv : Env := ⟨5, fun _ => ⟨0, 1⟩, fun l => l.length⟩

/-- C2: the round bound fails on the code.  For the empty cluster the claimed
bound is (number of initial candidates) × (unit-sequence length) = 0 × 5 = 0,
but the engine executes one full round (the loop body runs once and emits one
snapshot) before noticing that nothing expanded; the spec's own
error-handling section says an empty cluster performs no rounds. -/
theorem context_expansion_empty_cluster_round_bound :
    context_expansion_generator emptyEnv (SelectedCluster.mk []) ⟨1, 100⟩ 5 5 =
      Except.ok (some (SelectedCluster.mk [], 1)) ∧
    (SelectedCluster.mk []).candidates.length * emptyEnv.L < 1 := by
  constructor
  · decide
  · decide

/-! Growth-operation claims. -/

/-- Direction selector for the three growth operations. -/
inductive GrowthDir where
  | left
  | right
  | bidirectional
deriving DecidableEq

/-- Dispatch to the three growth operations of the source. -/
def applyGrowth (d : GrowthDir) (env : Env) (c : SummaryCandidate) (n : Int)
    (branch_from : Option Int) (timestamp : Int) : Except PyErr SummaryCandidate :=
  match d with
  | GrowthDir.left => c.add_left_context env n branch_from timestamp
  | GrowthDir.right => c.add_right_context env n branch_from timestamp
  | GrowthDir.bidirectional => c.add_bidirectional_context env n branch_from timestamp

theorem List.get?_isSome_iff {l : List α} {j : Nat} : (l.get? j).isSome ↔ j < l.length := by
  rw [Option.isSome_iff_ne_none, Ne, List.get?_eq_none]
  omega

theorem pyGet_isSome_iff {l : List α} {i : Int} :
    (pyGet l i).isSome ↔ (-(l.length : Int) ≤ i ∧ i < (l.length : Int)) := by
  unfold pyGet pyIdx
  split
  next h0 =>
    split
    next h1 =>
      simp only [Option.some_bind, List.get?_isSome_iff]
      omega
    next h1 =>
      simp only [Option.none_bind, Option.isSome_none]
      constructor
      · intro hc
        exact absurd hc (by simp)
      · intro hb
        omega
  next h0 =>
    split
    next h1 =>
      simp only [Option.some_bind, List.get?_isSome_iff]
      omega
    next h1 =>
      simp only [Option.none_bind, Option.isSome_none]
      constructor
      · intro hc
        exact absurd hc (by simp)
      · intro hb
        omega

theorem pyGet_append {l : List α} {i : Int} (h0 : 0 ≤ i) (h1 : i < (l.length : Int)) (x : α) :
    pyGet (l ++ [x]) i = pyGet l i := by
  unfold pyGet pyIdx
  have h2 : i < ((l ++ [x]).length : Int) := by
    simp only [List.length_append, List.length_cons, List.length_nil]
    push_cast
    omega
  simp only [h0, h1, h2, if_true, Option.some_bind]
  exact List.get?_append (by omega)

theorem pyGet_append_isSome {l : List α} {i : Int} (h : (pyGet l i).isSome) (x : α) :
    (pyGet (l ++ [x]) i).isSome := by
  rw [pyGet_isSome_iff] at h ⊢
  simp only [List.length_append, List.length_cons, List.length_nil]
  push_cast
  omega


theorem growFinish_ok (env : Env) (c : SummaryCandidate) {b : Int}
    (hs : (pyGet c.history b).isSome) (st0 : SummaryCandidate.State) :
    ∃ st, SummaryCandidate.growFinish env c b st0 =
      Except.ok { c with history := c.history ++ [st] } := by
  obtain ⟨p2, hp2⟩ := Option.isSome_iff_exists.mp
    (pyGet_append_isSome hs { st0 with score := env.oracle st0.chains })
  simp only [SummaryCandidate.growFinish, hp2, orErr, Except.bind, bind, pure]
  exact ⟨_, rfl⟩

theorem growFinish_spec (env : Env) (c : SummaryCandidate) {b : Int}
    (hb0 : 0 ≤ b) (hblt : b < (c.history.length : Int))
    {parent : SummaryCandidate.State} (hp : pyGet c.history b = some parent)
    (st0 : SummaryCandidate.State) :
    ∃ st, SummaryCandidate.growFinish env c b st0 =
        Except.ok { c with history := c.history ++ [st] } ∧
      st.chains = st0.chains ∧ st.score = env.oracle st.chains ∧
      (0 < env.wordCount st.chains →
        st.improvement_score =
          Q.rnd3 (Q.divNat (Q.sub st.score parent.score)
            (env.wordCount st.chains))) ∧
      (env.wordCount st.chains = 0 → st.improvement_score = st0.improvement_score) := by
  have hpy : pyGet (c.history ++ [{ st0 with score := env.oracle st0.chains }]) b = some parent := by
    rw [pyGet_append hb0 hblt]
    exact hp
  simp only [SummaryCandidate.growFinish, hpy, orErr, Except.bind, bind, pure]
  by_cases hwc : 0 < env.wordCount st0.chains
  · simp only [if_pos hwc]
    exact ⟨_, rfl, rfl, rfl, fun _ => rfl, fun hz => absurd hwc (by dsimp only at hz; omega)⟩
  · simp only [if_neg hwc]
    exact ⟨_, rfl, rfl, rfl, fun hpos => absurd hpos hwc, fun _ => rfl⟩


theorem growth_guard_cond {n : Int} (hn : 0 < n) {c : SummaryCandidate}
    (he : c.expandable = true) : (decide (n ≤ 0) || !c.expandable) = false := by
  rw [he, decide_eq_false (by omega)]
  rfl

theorem add_right_context_appends (env : Env) (c : SummaryCandidate) (n : Int)
    (bf : Option Int) (ts : Int) (hn : 0 < n) (he : c.expandable = true)
    {b : Int} (hb : SummaryCandidate.resolveBranch c bf = some b)
    {parent : SummaryCandidate.State} (hp : pyGet c.history b = some parent)
    (hne : parent.chains ≠ []) :
    ∃ st, c.add_right_context env n bf ts =
      Except.ok { c with history := c.history ++ [st] } := by
  obtain ⟨lastc, hL⟩ := Option.isSome_iff_exists.mp
    (show parent.chains.getLast?.isSome by
      rw [Option.isSome_iff_ne_none, Ne, List.getLast?_eq_none_iff]
      exact hne)
  simp only [SummaryCandidate.add_right_context, growth_guard_cond hn he, hb, hp,
    SummaryCandidate.State.from_state, hL, orErr, Except.bind, bind, pure,
    Bool.false_eq_true, if_false]
  exact growFinish_ok env c (by rw [hp]; rfl) _


theorem add_left_context_appends (env : Env) (c : SummaryCandidate) (n : Int)
    (bf : Option Int) (ts : Int) (hn : 0 < n) (he : c.expandable = true)
    {b : Int} (hb : SummaryCandidate.resolveBranch c bf = some b)
    {parent : SummaryCandidate.State} (hp : pyGet c.history b = some parent)
    (hne : parent.chains ≠ []) :
    ∃ st, c.add_left_context env n bf ts =
      Except.ok { c with history := c.history ++ [st] } := by
  obtain ⟨headc, hH⟩ := Option.isSome_iff_exists.mp
    (show parent.chains.head?.isSome by
      rw [Option.isSome_iff_ne_none, Ne, List.head?_eq_none_iff]
      exact hne)
  simp only [SummaryCandidate.add_left_context, growth_guard_cond hn he, hb, hp,
    SummaryCandidate.State.from_state, hH, orErr, Except.bind, bind, pure,
    Bool.false_eq_true, if_false]
  exact growFinish_ok env c (by rw [hp]; rfl) _

theorem add_bidirectional_context_appends (env : Env) (c : SummaryCandidate) (n : Int)
    (bf : Option Int) (ts : Int) (hn : 0 < n) (he : c.expandable = true)
    {b : Int} (hb : SummaryCandidate.resolveBranch c bf = some b)
    {parent : SummaryCandidate.State} (hp : pyGet c.history b = some parent)
    (hne : parent.chains ≠ []) :
    ∃ st, c.add_bidirectional_context env n bf ts =
      Except.ok { c with history := c.history ++ [st] } := by
  obtain ⟨lastc, hL⟩ := Option.isSome_iff_exists.mp
    (show parent.chains.getLast?.isSome by
      rw [Option.isSome_iff_ne_none, Ne, List.getLast?_eq_none_iff]
      exact hne)
  obtain ⟨headc, hH⟩ := Option.isSome_iff_exists.mp
    (show (parent.chains ++ env.next lastc n.toNat).head?.isSome by
      rw [Option.isSome_iff_ne_none, Ne, List.head?_eq_none_iff]
      simp only [List.append_eq_nil]
      intro hcon
      exact hne hcon.1)
  simp only [SummaryCandidate.add_bidirectional_context, growth_guard_cond hn he, hb, hp,
    SummaryCandidate.State.from_state, hL, hH, orErr, Except.bind, bind, pure,
    Bool.false_eq_true, if_false]
  exact growFinish_ok env c (by rw [hp]; rfl) _


theorem growth_noop (d : GrowthDir) (env : Env) (c : SummaryCandidate) (n : Int)
    (bf : Option Int) (ts : Int) (h : n ≤ 0 ∨ c.expandable = false) :
    applyGrowth d env c n bf ts = Except.ok c := by
  have hcond : (decide (n ≤ 0) || !c.expandable) = true := by
    rcases h with h | h
    · rw [decide_eq_true h]
      rfl
    · rw [h]
      simp
  cases d <;>
    simp only [applyGrowth, SummaryCandidate.add_left_context,
      SummaryCandidate.add_right_context, SummaryCandidate.add_bidirectional_context,
      hcond, if_true, pure] <;>
    rfl

/-- C6: a growth operation with `n ≤ 0` or a non-expandable candidate appends
no state and leaves the candidate entirely unchanged; otherwise (when the
branch-from index resolves to an existing state with a non-empty window) it
appends exactly one new state, leaving every previously existing state — and
every other field of the candidate — unmodified. -/
theorem growth_noop_and_frame (d : GrowthDir) (env : Env) (c : SummaryCandidate)
    (n : Int) (bf : Option Int) (ts : Int) :
    ((n ≤ 0 ∨ c.expandable = false) → applyGrowth d env c n bf ts = Except.ok c) ∧
    (∀ (b : Int) (parent : SummaryCandidate.State), 0 < n → c.expandable = true →
      SummaryCandidate.resolveBranch c bf = some b →
      pyGet c.history b = some parent → parent.chains ≠ [] →
      ∃ st, applyGrowth d env c n bf ts =
        Except.ok { c with history := c.history ++ [st] }) := by
  constructor
  · exact growth_noop d env c n bf ts
  · intro b parent hn he hb hp hne
    cases d
    · exact add_left_context_appends env c n bf ts hn he hb hp hne
    · exact add_right_context_appends env c n bf ts hn he hb hp hne
    · exact add_bidirectional_context_appends env c n bf ts hn he hb hp hne

/-- Witness for the frame theorem: a fresh candidate anchored at unit 2 in a
five-unit document, growing right by one. -/
theorem growth_noop_and_frame_witness :
    (SummaryCandidate.init 2 ⟨1000, 1000⟩).expandable = true ∧
    SummaryCandidate.resolveBranch (SummaryCandidate.init 2 ⟨1000, 1000⟩) none = some 0 ∧
    ∃ st, applyGrowth GrowthDir.right emptyEnv (SummaryCandidate.init 2 ⟨1000, 1000⟩) 1 none 0 =
      Except.ok { SummaryCandidate.init 2 ⟨1000, 1000⟩ with
        history := (SummaryCandidate.init 2 ⟨1000, 1000⟩).history ++ [st] } := by
  refine ⟨by decide, by decide, ?_⟩
  exact (growth_noop_and_frame GrowthDir.right emptyEnv
      (SummaryCandidate.init 2 ⟨1000, 1000⟩) 1 none 0).2 0
      ((SummaryCandidate.init 2 ⟨1000, 1000⟩).history.getD 0 default)
      (by decide) (by decide) (by decide) (by decide) (by decide)


theorem add_right_context_density (env : Env) (c : SummaryCandidate) (n : Int)
    (bf : Option Int) (ts : Int) (hn : 0 < n) (he : c.expandable = true)
    {b : Int} (hb : SummaryCandidate.resolveBranch c bf = some b)
    (hb0 : 0 ≤ b) (hblt : b < (c.history.length : Int))
    {parent : SummaryCandidate.State} (hp : pyGet c.history b = some parent)
    (hne : parent.chains ≠ []) :
    ∃ st, c.add_right_context env n bf ts =
        Except.ok { c with history := c.history ++ [st] } ∧
      st.score = env.oracle st.chains ∧
      (0 < env.wordCount st.chains →
        st.improvement_score =
          Q.rnd3 (Q.divNat (Q.sub st.score parent.score) (env.wordCount st.chains))) ∧
      (env.wordCount st.chains = 0 → st.improvement_score = parent.improvement_score) := by
  obtain ⟨lastc, hL⟩ := Option.isSome_iff_exists.mp
    (show parent.chains.getLast?.isSome by
      rw [Option.isSome_iff_ne_none, Ne, List.getLast?_eq_none_iff]
      exact hne)
  simp only [SummaryCandidate.add_right_context, growth_guard_cond hn he, hb, hp,
    SummaryCandidate.State.from_state, hL, orErr, Except.bind, bind, pure,
    Bool.false_eq_true, if_false]
  obtain ⟨st, h1, h2, h3, h4, h5⟩ := growFinish_spec env c hb0 hblt hp _
  exact ⟨st, h1, h3, h4, h5⟩

theorem add_left_context_density (env : Env) (c : SummaryCandidate) (n : Int)
    (bf : Option Int) (ts : Int) (hn : 0 < n) (he : c.expandable = true)
    {b : Int} (hb : SummaryCandidate.resolveBranch c bf = some b)
    (hb0 : 0 ≤ b) (hblt : b < (c.history.length : Int))
    {parent : SummaryCandidate.State} (hp : pyGet c.history b = some parent)
    (hne : parent.chains ≠ []) :
    ∃ st, c.add_left_context env n bf ts =
        Except.ok { c with history := c.history ++ [st] } ∧
      st.score = env.oracle st.chains ∧
      (0 < env.wordCount st.chains →
        st.improvement_score =
          Q.rnd3 (Q.divNat (Q.sub st.score parent.score) (env.wordCount st.chains))) ∧
      (env.wordCount st.chains = 0 → st.improvement_score = parent.improvement_score) := by
  obtain ⟨headc, hH⟩ := Option.isSome_iff_exists.mp
    (show parent.chains.head?.isSome by
      rw [Option.isSome_iff_ne_none, Ne, List.head?_eq_none_iff]
      exact hne)
  simp only [SummaryCandidate.add_left_context, growth_guard_cond hn he, hb, hp,
    SummaryCandidate.State.from_state, hH, orErr, Except.bind, bind, pure,
    Bool.false_eq_true, if_false]
  obtain ⟨st, h1, h2, h3, h4, h5⟩ := growFinish_spec env c hb0 hblt hp _
  exact ⟨st, h1, h3, h4, h5⟩

theorem add_bidirectional_context_density (env : Env) (c : SummaryCandidate) (n : Int)
    (bf : Option Int) (ts : Int) (hn : 0 < n) (he : c.expandable = true)
    {b : Int} (hb : SummaryCandidate.resolveBranch c bf = some b)
    (hb0 : 0 ≤ b) (hblt : b < (c.history.length : Int))
    {parent : SummaryCandidate.State} (hp : pyGet c.history b = some parent)
    (hne : parent.chains ≠ []) :
    ∃ st, c.add_bidirectional_context env n bf ts =
        Except.ok { c with history := c.history ++ [st] } ∧
      st.score = env.oracle st.chains ∧
      (0 < env.wordCount st.chains →
        st.improvement_score =
          Q.rnd3 (Q.divNat (Q.sub st.score parent.score) (env.wordCount st.chains))) ∧
      (env.wordCount st.chains = 0 → st.improvement_score = parent.improvement_score) := by
  obtain ⟨lastc, hL⟩ := Option.isSome_iff_exists.mp
    (show parent.chains.getLast?.isSome by
      rw [Option.isSome_iff_ne_none, Ne, List.getLast?_eq_none_iff]
      exact hne)
  obtain ⟨headc, hH⟩ := Option.isSome_iff_exists.mp
    (show (parent.chains ++ env.next lastc n.toNat).head?.isSome by
      rw [Option.isSome_iff_ne_none, Ne, List.head?_eq_none_iff]
      simp only [List.append_eq_nil]
      intro hcon
      exact hne hcon.1)
  simp only [SummaryCandidate.add_bidirectional_context, growth_guard_cond hn he, hb, hp,
    SummaryCandidate.State.from_state, hL, hH, orErr, Except.bind, bind, pure,
    Bool.false_eq_true, if_false]
  obtain ⟨st, h1, h2, h3, h4, h5⟩ := growFinish_spec env c hb0 hblt hp _
  exact ⟨st, h1, h3, h4, h5⟩

/-- Environment of the rounding counterexample: every three-unit window
scores 1.0, every other window 0; each unit is one word. -/
def c7env : Env :=
  ⟨7, (fun l => if l.length = 3 then ⟨1000, 1000⟩ else ⟨0, 1000⟩), fun l => l.length⟩

/-- A fresh candidate anchored at unit 4 with seed score 0. -/
def c7cand : SummaryCandidate := SummaryCandidate.init 4 ⟨0, 1000⟩

/-- Counterexample for C7: growing `c7cand` right by two units yields the
window `[4, 5, 6]`, word count 3, score gain 1.0; the code stores the
improvement density `round((1.0 - 0.0)/3, 3) = 0.333`, which differs (as a
rational value) from the claimed `(new_score - parent_score)/word_count =
1/3`. -/
theorem improvement_density_is_rounded :
    ((c7cand.add_right_context c7env 2 none 0).map
        (fun c => (c.history.getD 1 default).improvement_score)) = Except.ok ⟨333, 1000⟩ ∧
    Q.eqv ⟨333, 1000⟩ (Q.divNat (Q.sub ⟨1000, 1000⟩ ⟨0, 1000⟩) 3) = false := by
  constructor
  · decide
  · decide

/-- C7 (amended): for every successful growth operation whose branch-from
index is non-negative and in range, the new state's improvement density
equals the quotient (new score − branch-from parent score) / word count of
the whole new window, rounded to three decimal places (half to even), when
that word count is positive; when the word count is zero the density is the
value copied from the branch-from parent. -/
theorem growth_improvement_density (d : GrowthDir) (env : Env) (c : SummaryCandidate)
    (n : Int) (bf : Option Int) (ts : Int) (hn : 0 < n) (he : c.expandable = true)
    {b : Int} (hb : SummaryCandidate.resolveBranch c bf = some b)
    (hb0 : 0 ≤ b) (hblt : b < (c.history.length : Int))
    {parent : SummaryCandidate.State} (hp : pyGet c.history b = some parent)
    (hne : parent.chains ≠ []) :
    ∃ st, applyGrowth d env c n bf ts =
        Except.ok { c with history := c.history ++ [st] } ∧
      st.score = env.oracle st.chains ∧
      (0 < env.wordCount st.chains →
        st.improvement_score =
          Q.rnd3 (Q.divNat (Q.sub st.score parent.score) (env.wordCount st.chains))) ∧
      (env.wordCount st.chains = 0 → st.improvement_score = parent.improvement_score) := by
  cases d
  · exact add_left_context_density env c n bf ts hn he hb hb0 hblt hp hne
  · exact add_right_context_density env c n bf ts hn he hb hb0 hblt hp hne
  · exact add_bidirectional_context_density env c n bf ts hn he hb hb0 hblt hp hne

/-- Witness for the amended density theorem, on the rounding
counterexample's candidate. -/
theorem growth_improvement_density_witness :
    ∃ st, applyGrowth GrowthDir.right c7env c7cand 2 none 0 =
        Except.ok { c7cand with history := c7cand.history ++ [st] } ∧
      st.score = c7env.oracle st.chains ∧
      (0 < c7env.wordCount st.chains →
        st.improvement_score =
          Q.rnd3 (Q.divNat (Q.sub st.score (c7cand.history.getD 0 default).score)
            (c7env.wordCount st.chains))) ∧
      (c7env.wordCount st.chains = 0 →
        st.improvement_score = (c7cand.history.getD 0 default).improvement_score) := by
  exact @growth_improvement_density GrowthDir.right c7env c7cand 2 none 0
    (by decide) (by decide) 0 (by decide) (by decide) (by decide)
    (c7cand.history.getD 0 default) (by decide) (by decide)

/-! Library lemmas for the round-state operations. -/

instance : Inhabited SummaryCandidate := ⟨⟨0, none, [], true⟩⟩

theorem updAt_length (l : List α) (j : Nat) (f : α → α) : (updAt l j f).length = l.length := by
  induction l generalizing j with
  | nil => rfl
  | cons a t ih =>
      cases j with
      | zero => rfl
      | succ j => simp only [updAt, List.length_cons, ih]

theorem getD_updAt_self {l : List α} {j : Nat} (h : j < l.length) (f : α → α) (d : α) :
    (updAt l j f).getD j d = f (l.getD j d) := by
  induction l generalizing j with
  | nil => exact absurd h (by simp)
  | cons a t ih =>
      cases j with
      | zero => rfl
      | succ j =>
          simp only [updAt, List.getD_cons_succ]
          exact ih (by simpa using h) 

theorem getD_updAt_other {l : List α} {i j : Nat} (h : i ≠ j) (f : α → α) (d : α) :
    (updAt l j f).getD i d = l.getD i d := by
  induction l generalizing i j with
  | nil => rfl
  | cons a t ih =>
      cases j with
      | zero =>
          cases i with
          | zero => exact absurd rfl h
          | succ i => rfl
      | succ j =>
          cases i with
          | zero => rfl
          | succ i =>
              simp only [updAt, List.getD_cons_succ]
              exact ih (by omega) 

theorem get?_updAt_other {l : List α} {i j : Nat} (h : i ≠ j) (f : α → α) :
    (updAt l j f).get? i = l.get? i := by
  induction l generalizing i j with
  | nil => rfl
  | cons a t ih =>
      cases j with
      | zero =>
          cases i with
          | zero => exact absurd rfl h
          | succ i => rfl
      | succ j =>
          cases i with
          | zero => rfl
          | succ i =>
              simp only [updAt, List.get?_cons_succ]
              exact ih (by omega)

theorem get?_updAt_self {l : List α} {j : Nat} (h : j < l.length) (f : α → α) :
    ∃ a, l.get? j = some a ∧ (updAt l j f).get? j = some (f a) := by
  induction l generalizing j with
  | nil => exact absurd h (by simp)
  | cons a t ih =>
      cases j with
      | zero => exact ⟨a, rfl, rfl⟩
      | succ j => exact ih (by simpa using h)

theorem alook_aset_self (m : List (Nat × Nat)) (k v : Nat) :
    alook (aset m k v) k = some v := by
  simp [alook, aset]

theorem find?_key_filter_ne (m : List (Nat × Nat)) {k k1 : Nat} (h : k ≠ k1) :
    List.find? (fun p => p.1 == k) (List.filter (fun p => !(p.1 == k1)) m) =
      List.find? (fun p => p.1 == k) m := by
  induction m with
  | nil => rfl
  | cons p t ih =>
      by_cases hp : p.1 = k1
      · rw [List.filter_cons_of_neg (by simp [hp]),
          List.find?_cons_of_neg t (by simp [hp]; omega)]
        exact ih
      · rw [List.filter_cons_of_pos (by simp [hp])]
        by_cases hk : p.1 = k
        · rw [List.find?_cons_of_pos _ (by simp [hk]),
            List.find?_cons_of_pos t (by simp [hk])]
        · rw [List.find?_cons_of_neg _ (by simp [hk]),
            List.find?_cons_of_neg t (by simp [hk])]
          exact ih

theorem alook_aset_other (m : List (Nat × Nat)) {k k1 : Nat} (h : k ≠ k1) (v : Nat) :
    alook (aset m k1 v) k = alook m k := by
  simp only [alook, aset]
  rw [List.find?_cons_of_neg _ (by simp; omega), find?_key_filter_ne m h]


theorem sadd_mem (s : List Nat) (x y : Nat) (h : x ∈ s) : x ∈ sadd s y := by
  unfold sadd
  split
  · exact h
  · exact List.mem_cons_of_mem y h

theorem sadd_mem_self (s : List Nat) (x : Nat) : x ∈ sadd s x := by
  unfold sadd
  split
  next h => exact h
  next h => exact List.mem_cons_self x s

theorem claimAll_cons (a : Nat) (t : List Nat) (pos : Nat) (st : RoundSt) :
    claimAll (a :: t) pos st =
      claimAll t pos { st with seen := sadd st.seen a, forbids := aset st.forbids a pos } := rfl

theorem claimAll_candidates (l : List Nat) (pos : Nat) (st : RoundSt) :
    (claimAll l pos st).candidates = st.candidates ∧
    (claimAll l pos st).marked = st.marked := by
  induction l generalizing st with
  | nil => exact ⟨rfl, rfl⟩
  | cons a t ih =>
      rw [claimAll_cons]
      exact ih _

theorem claimAll_seen_mono (l : List Nat) (pos : Nat) (st : RoundSt) {x : Nat}
    (h : x ∈ st.seen) : x ∈ (claimAll l pos st).seen := by
  induction l generalizing st with
  | nil => exact h
  | cons a t ih =>
      rw [claimAll_cons]
      exact ih _ (sadd_mem _ _ _ h)

theorem claimAll_seen_mem (l : List Nat) (pos : Nat) (st : RoundSt) {x : Nat}
    (h : x ∈ l) : x ∈ (claimAll l pos st).seen := by
  induction l generalizing st with
  | nil => exact absurd h (by simp)
  | cons a t ih =>
      rw [claimAll_cons]
      rcases List.mem_cons.mp h with h | h
      · subst h
        exact claimAll_seen_mono t pos _ (sadd_mem_self _ _)
      · exact ih _ h

theorem claimAll_forbids_not_mem (l : List Nat) (pos : Nat) (st : RoundSt) {x : Nat}
    (h : x ∉ l) : alook (claimAll l pos st).forbids x = alook st.forbids x := by
  induction l generalizing st with
  | nil => rfl
  | cons a t ih =>
      have hx : x ∉ t := fun hc => h (List.mem_cons_of_mem a hc)
      have hxa : x ≠ a := fun hc => h (hc ▸ List.mem_cons_self a t)
      rw [claimAll_cons, ih _ hx]
      exact alook_aset_other _ hxa pos

theorem claimAll_forbids_mem (l : List Nat) (pos : Nat) (st : RoundSt) {x : Nat}
    (h : x ∈ l) : alook (claimAll l pos st).forbids x = some pos := by
  induction l generalizing st with
  | nil => exact absurd h (by simp)
  | cons a t ih =>
      rw [claimAll_cons]
      by_cases hx : x ∈ t
      · exact ih _ hx
      · have hxa : x = a := by
          rcases List.mem_cons.mp h with h | h
          · exact h
          · exact absurd h hx
        subst hxa
        rw [claimAll_forbids_not_mem t pos _ hx]
        exact alook_aset_self _ x pos


/-! Skip-rule claims about the round body. -/

/-- A frozen candidate claiming units `[2, 3]` at position 0. -/
def c4A : SummaryCandidate :=
  ⟨2, some 0, [⟨[2, 3], ⟨2000, 1000⟩, [Act.right 1], 0, ⟨0, 1⟩⟩], false⟩

/-- A frozen candidate at position 1 whose anchor (3) is claimed by `c4A`. -/
def c4B : SummaryCandidate :=
  ⟨3, some 0, [⟨[3, 4], ⟨1000, 1000⟩, [Act.right 1], 0, ⟨0, 1⟩⟩], false⟩

/-- The round state after position 0 has claimed `[2, 3]`. -/
def c4st1 : RoundSt := ⟨[c4A, c4B], [3, 2], [(3, 0), (2, 0)], [false, false]⟩

/-- An environment for the skip-rule counterexample. -/
def c4env : Env := ⟨6, fun _ => ⟨0, 1000⟩, fun l => l.length⟩

/-- Counterexample for C4: the candidate at position 1 is non-expandable and
its anchor unit 3 is already claimed this round by the higher-priority
candidate at position 0, yet processing it does not mark it for deletion —
it claims its whole selected state `[3, 4]` instead, overwriting the
ownership of unit 3.  The claim's eviction rule does not apply to
non-expandable candidates. -/
theorem skip_rules_order_cex :
    (c4B.expandable = false ∧ c4B.chain ∈ c4st1.seen) ∧
    processCandidate c4env ⟨1, 100⟩ 0 none 5 1 c4st1 false =
      Except.ok (some (⟨[c4A, c4B], [4, 3, 2], [(4, 1), (3, 1), (2, 0)], [false, false]⟩,
        false)) := by
  constructor
  · constructor
    · rfl
    · decide
  · decide

/-- C4 (amended): in every round, a candidate that is not yet marked and not
expandable claims every unit of its selected state for this round — taking
over their ownership even from a higher-priority claimant — and is skipped
for growth, leaving the candidate list and the deletion marks unchanged;
the anchor-already-claimed eviction rule applies only to expandable
candidates: such a candidate is marked for deletion with no further
processing (claims, candidates and ownership map unchanged). -/
theorem processCandidate_skip_rules (env : Env) (thr : Q) (ts : Int)
    (pf : Option (List (Nat × Nat))) (fuel pos : Nat) (st : RoundSt)
    (ex : Bool) {c : SummaryCandidate}
    (hc : st.candidates.get? pos = some c)
    (hm : st.marked.getD pos false = false) :
    (∀ ctx, c.expandable = false → c.contextE = Except.ok ctx →
      ∃ st1, processCandidate env thr ts pf fuel pos st ex = Except.ok (some (st1, ex)) ∧
        st1.candidates = st.candidates ∧ st1.marked = st.marked ∧
        (∀ u ∈ ctx.chains, u ∈ st1.seen ∧ alook st1.forbids u = some pos)) ∧
    (c.expandable = true → c.chain ∈ st.seen →
      processCandidate env thr ts pf fuel pos st ex = Except.ok (some (st.mark pos, ex)) ∧
        (st.mark pos).candidates = st.candidates ∧ (st.mark pos).seen = st.seen ∧
        (st.mark pos).forbids = st.forbids ∧
        (pos < st.marked.length → (st.mark pos).marked.getD pos false = true)) := by
  constructor
  · intro ctx he hctx
    refine ⟨claimAll ctx.chains pos st, ?_, ?_, ?_, ?_⟩
    · simp only [processCandidate, RoundSt.cand, hc, orErr, Except.bind, bind, pure,
        hm, he, hctx, Bool.false_eq_true, if_false, Bool.not_false, if_true]
      rfl
    · exact (claimAll_candidates _ _ _).1
    · exact (claimAll_candidates _ _ _).2
    · intro u hu
      exact ⟨claimAll_seen_mem _ _ _ hu, claimAll_forbids_mem _ _ _ hu⟩
  · intro he hseen
    refine ⟨?_, rfl, rfl, rfl, ?_⟩
    · simp only [processCandidate, RoundSt.cand, hc, orErr, Except.bind, bind, pure,
        hm, he, hseen, Bool.false_eq_true, if_false, Bool.not_true, if_true]
      rfl
    · intro hlt
      exact (by simpa using getD_updAt_self hlt (fun _ => true) false :
        (st.mark pos).marked.getD pos false = true)

/-- Witness for the amended skip rules, instantiated on the counterexample
state. -/
theorem processCandidate_skip_rules_witness :
    ∃ st1, processCandidate c4env ⟨1, 100⟩ 0 none 5 1 c4st1 false =
        Except.ok (some (st1, false)) ∧
      st1.candidates = c4st1.candidates ∧ st1.marked = c4st1.marked ∧
      (∀ u ∈ [3, 4], u ∈ st1.seen ∧ alook st1.forbids u = some 1) := by
  exact (@processCandidate_skip_rules c4env ⟨1, 100⟩ 0 none 5 1 c4st1 false
    c4B (by decide) (by decide)).1 ⟨[3, 4], ⟨1000, 1000⟩, [Act.right 1], 0, ⟨0, 1⟩⟩
    (by decide) (by decide)


/-! Conflict-resolution claims. -/

/-- Higher-priority candidate at position 0 owning units 2 and 3. -/
def c5A : SummaryCandidate :=
  ⟨2, some 0, [⟨[1, 2, 3], ⟨3000, 1000⟩, [Act.bidirectional 1], 0, ⟨0, 1⟩⟩], true⟩

/-- Higher-priority candidate at position 1 owning unit 4. -/
def c5B : SummaryCandidate :=
  ⟨5, some 0, [⟨[4, 5], ⟨2500, 1000⟩, [Act.left 1], 0, ⟨0, 1⟩⟩], true⟩

/-- Low-priority candidate at position 2 whose selected state `[2, 3, 4]`
contains three units claimed by the two candidates above. -/
def c5X : SummaryCandidate :=
  ⟨3, some 1, [⟨[3], ⟨1000, 1000⟩, [], 0, ⟨1, 100⟩⟩,
               ⟨[2, 3, 4], ⟨1200, 1000⟩, [Act.bidirectional 1], 0, ⟨6, 1000⟩⟩], true⟩

/-- The conflict-loop state: units 1, 2, 3 owned by position 0 and units
4, 5 by position 1. -/
def c5st : RoundSt :=
  ⟨[c5A, c5B, c5X], [1, 2, 3, 4, 5],
   [(1, 0), (2, 0), (3, 0), (4, 1), (5, 1)], [false, false, false]⟩

/-- Counterexample for C5: the candidate at position 2 has a selected state
containing units claimed by two different higher-priority candidates
(units 2, 3 by position 0 and unit 4 by position 1 — three contested units
in total).  The conflict body leaves the state completely unchanged (no
rival is evicted, the candidate is neither reverted nor frozen), so the
loop repeats forever; with any concrete fuel the loop reports exhaustion. -/
theorem conflict_two_owner_spin_cex :
    ((c5X.contextE.map (fun ctx => ctx.chains.filter (fun u => decide (u ∈ c5st.seen)))) =
        Except.ok [2, 3, 4] ∧
      alook c5st.forbids 2 = some 0 ∧ alook c5st.forbids 4 = some 1) ∧
    conflictStep ⟨1, 100⟩ 0 2 c5st = Except.ok (Sum.inl c5st) ∧
    conflictLoop ⟨1, 100⟩ 0 2 30 c5st = Except.ok none := by
  refine ⟨⟨?_, ?_, ?_⟩, ?_, ?_⟩
  · decide
  · decide
  · decide
  · decide
  · decide

/-- C5 (amended): one iteration of the conflict-resolution loop, when the
candidate's selected state contains exactly two units claimed this round,
owned by two different (higher-priority) candidates: if the candidate's
score strictly exceeds both owners' scores, both owners are marked for
deletion and the two contested units' ownership transfers to the candidate;
otherwise the candidate's selection reverts to the first state of the
current round and it is permanently frozen, with no deletion mark added. -/
theorem conflictStep_two_owners (thr : Q) (ts : Int) (pos : Nat) (st : RoundSt)
    {c : SummaryCandidate} (hc : st.candidates.get? pos = some c)
    {ctx : SummaryCandidate.State} (hctx : c.contextE = Except.ok ctx)
    {u1 u2 : Nat} (hu : u1 ≠ u2)
    (hfil : ctx.chains.filter (fun u => decide (u ∈ st.seen)) = [u1, u2])
    {p1 p2 : Nat} (ho1 : alook st.forbids u1 = some p1)
    (ho2 : alook st.forbids u2 = some p2) (hpp : p1 ≠ p2)
    (hl1 : p1 < st.marked.length) (hl2 : p2 < st.marked.length)
    {o1 o2 : SummaryCandidate} (hp1 : st.candidates.get? p1 = some o1)
    (hp2 : st.candidates.get? p2 = some o2)
    {s1 s2 : Q} (hs1 : o1.scoreE = Except.ok s1) (hs2 : o2.scoreE = Except.ok s2) :
    (Q.lt s1 ctx.score = true → Q.lt s2 ctx.score = true →
      ∃ st2, conflictStep thr ts pos st = Except.ok (Sum.inr st2) ∧
        st2.candidates = st.candidates ∧
        st2.marked.getD p1 false = true ∧ st2.marked.getD p2 false = true ∧
        alook st2.forbids u1 = some pos ∧ alook st2.forbids u2 = some pos) ∧
    ((Q.lt s1 ctx.score && Q.lt s2 ctx.score) = false →
      ∀ k, firstIdxWithTs c.history ts = some k →
      conflictStep thr ts pos st =
        Except.ok (Sum.inr (st.setCand pos
          { c with selected_state := some (k : Int), expandable := false })) ∧
      (st.setCand pos
        { c with selected_state := some (k : Int), expandable := false }).marked
        = st.marked) := by
  constructor
  · intro h1 h2
    refine ⟨{ st with
        marked := updAt (updAt st.marked p1 (fun _ => true)) p2 (fun _ => true),
        forbids := aset (aset st.forbids u1 pos) u2 pos }, ?_, rfl, ?_, ?_, ?_, ?_⟩
    · simp only [conflictStep, RoundSt.cand, RoundSt.mark, hc, hctx, hfil, ho1, ho2,
        hp1, hp2, hs1, hs2, orErr, Except.bind, bind, pure, h1, h2, Bool.true_and,
        eq_self_iff_true, if_true]
      rfl
    · show (updAt (updAt st.marked p1 (fun _ => true)) p2 (fun _ => true)).getD p1 false = true
      rw [getD_updAt_other hpp (fun _ => true) false]
      have := getD_updAt_self hl1 (fun _ => true) false
      simpa using this
    · show (updAt (updAt st.marked p1 (fun _ => true)) p2 (fun _ => true)).getD p2 false = true
      have := getD_updAt_self (l := updAt st.marked p1 (fun _ => true)) (j := p2)
        (by rw [updAt_length]; exact hl2) (fun _ => true) false
      simpa using this
    · show alook (aset (aset st.forbids u1 pos) u2 pos) u1 = some pos
      rw [alook_aset_other _ hu pos]
      exact alook_aset_self _ u1 pos
    · show alook (aset (aset st.forbids u1 pos) u2 pos) u2 = some pos
      exact alook_aset_self _ u2 pos
  · intro hb k hk
    constructor
    · simp only [conflictStep, RoundSt.cand, RoundSt.setCand, hc, hctx, hfil, ho1, ho2,
        hp1, hp2, hs1, hs2, hk, orErr, Except.bind, bind, pure, hb,
        Bool.false_eq_true, if_false]
      rfl
    · rfl

/-- Witness for the amended conflict theorem: a two-unit contest the
candidate wins against both owners. -/
def c5Xw : SummaryCandidate :=
  ⟨3, some 1, [⟨[3], ⟨1000, 1000⟩, [], 0, ⟨1, 100⟩⟩,
               ⟨[2, 3, 4], ⟨9000, 1000⟩, [Act.bidirectional 1], 0, ⟨6, 1000⟩⟩], true⟩

/-- The winning-contest state: unit 2 owned by position 0, unit 4 by
position 1, unit 3 free. -/
def c5stw : RoundSt :=
  ⟨[c5A, c5B, c5Xw], [1, 2, 4, 5],
   [(1, 0), (2, 0), (4, 1), (5, 1)], [false, false, false]⟩

theorem conflictStep_two_owners_witness :
    ∃ st2, conflictStep ⟨1, 100⟩ 0 2 c5stw = Except.ok (Sum.inr st2) ∧
      st2.candidates = c5stw.candidates ∧
      st2.marked.getD 0 false = true ∧ st2.marked.getD 1 false = true ∧
      alook st2.forbids 2 = some 2 ∧ alook st2.forbids 4 = some 2 := by
  exact (@conflictStep_two_owners ⟨1, 100⟩ 0 2 c5stw c5Xw (by decide)
    ⟨[2, 3, 4], ⟨9000, 1000⟩, [Act.bidirectional 1], 0, ⟨6, 1000⟩⟩ (by decide)
    2 4 (by decide) (by decide)
    0 1 (by decide) (by decide) (by decide) (by decide) (by decide)
    c5A c5B (by decide) (by decide)
    ⟨3000, 1000⟩ ⟨2500, 1000⟩ (by decide) (by decide)).1
    (by decide) (by decide)


/-! Merge claims: well-formedness infrastructure. -/

/-- A candidate whose selection resolves to a state with a non-empty window
(the well-formedness every really constructed candidate enjoys). -/
def CandWF (c : SummaryCandidate) : Prop :=
  ∃ ctx, c.contextE = Except.ok ctx ∧ ctx.chains ≠ []

theorem mapM_ok {α β : Type} {f : α → Except PyErr β} :
    ∀ {l : List α}, (∀ a ∈ l, ∃ b, f a = Except.ok b) →
      ∃ bs, l.mapM f = Except.ok bs ∧ bs.length = l.length ∧
        ∀ b ∈ bs, ∃ a, a ∈ l ∧ f a = Except.ok b := by
  intro l
  induction l with
  | nil =>
      intro _
      exact ⟨[], rfl, rfl, by simp⟩
  | cons a t ih =>
      intro h
      obtain ⟨b, hb⟩ := h a (List.mem_cons_self a t)
      obtain ⟨bs, hbs, hlen, hmem⟩ := ih (fun x hx => h x (List.mem_cons_of_mem a hx))
      refine ⟨b :: bs, ?_, by simpa using hlen, ?_⟩
      · rw [List.mapM_cons, hb, hbs]
        rfl
      · intro x hx
        rcases List.mem_cons.mp hx with hx | hx
        · exact ⟨a, List.mem_cons_self a t, hx ▸ hb⟩
        · obtain ⟨a2, ha2, hfa2⟩ := hmem x hx
          exact ⟨a2, List.mem_cons_of_mem a ha2, hfa2⟩

theorem mem_sinsert {le : α → α → Bool} {x y : α} {l : List α} :
    x ∈ sinsert le y l ↔ x = y ∨ x ∈ l := by
  induction l with
  | nil => simp [sinsert]
  | cons a t ih =>
      unfold sinsert
      split
      · simp
      · simp only [List.mem_cons, ih]
        tauto

theorem mem_ssort {le : α → α → Bool} {x : α} {l : List α} :
    x ∈ ssort le l ↔ x ∈ l := by
  induction l with
  | nil => simp [ssort]
  | cons a t ih =>
      unfold ssort
      rw [mem_sinsert, ih, List.mem_cons]

theorem ssort_ne_nil {le : α → α → Bool} {l : List α} (h : l ≠ []) : ssort le l ≠ [] := by
  cases l with
  | nil => exact absurd rfl h
  | cons a t =>
      unfold ssort
      intro hc
      have : a ∈ sinsert le a (ssort le t) := mem_sinsert.mpr (Or.inl rfl)
      rw [hc] at this
      exact absurd this (by simp)

theorem contextE_elim {c : SummaryCandidate} {ctx : SummaryCandidate.State}
    (h : c.contextE = Except.ok ctx) :
    ∃ i j, c.selected_state = some i ∧ pyIdx c.history.length i = some j ∧
      c.history.get? j = some ctx := by
  cases hs : c.selected_state with
  | none =>
      simp only [SummaryCandidate.contextE, hs] at h
      exact Except.noConfusion h
  | some i =>
      simp only [SummaryCandidate.contextE, hs, pyGet] at h
      cases hj : pyIdx c.history.length i with
      | none =>
          simp only [hj, Option.none_bind, orErr] at h
          exact Except.noConfusion h
      | some j =>
          simp only [hj, Option.some_bind] at h
          cases hg : c.history.get? j with
          | none =>
              simp only [hg, orErr] at h
              exact Except.noConfusion h
          | some a =>
              simp only [hg, orErr, Except.ok.injEq] at h
              subst h
              exact ⟨i, j, rfl, hj, hg⟩

theorem contextE_updAt {c : SummaryCandidate} {ctx : SummaryCandidate.State}
    (h : c.contextE = Except.ok ctx) {i : Int} {j : Nat}
    (hi : c.selected_state = some i) (hj : pyIdx c.history.length i = some j)
    (f : SummaryCandidate.State → SummaryCandidate.State) :
    ({ c with history := updAt c.history j f } : SummaryCandidate).contextE =
      Except.ok (f ctx) := by
  obtain ⟨i2, j2, hi2, hj2, hg2⟩ := contextE_elim h
  rw [hi] at hi2
  cases hi2
  rw [hj] at hj2
  cases hj2
  have hlt : j < c.history.length := by
    by_contra hc
    push_neg at hc
    have hnone : c.history.get? j = none := List.get?_eq_none.mpr hc
    rw [hnone] at hg2
    exact Option.noConfusion hg2
  obtain ⟨a, ha, hupd⟩ := get?_updAt_self hlt f
  rw [ha] at hg2
  cases hg2
  unfold SummaryCandidate.contextE pyGet
  simp only [hi, updAt_length, hj, Option.some_bind, hupd, orErr]

theorem scoreE_of_contextE {c : SummaryCandidate} {ctx : SummaryCandidate.State}
    (h : c.contextE = Except.ok ctx) : c.scoreE = Except.ok ctx.score := by
  unfold SummaryCandidate.scoreE
  rw [h]
  rfl


theorem mergeStep_ok (thr : Q) (keep : List SummaryCandidate) (prev c : SummaryCandidate)
    (hp : CandWF prev) (hc : CandWF c) :
    ∃ res, SelectedCluster.mergeStep thr (keep, prev) c = Except.ok res ∧
      CandWF res.2 ∧ ∀ k ∈ res.1, k ∈ keep ∨ k = prev := by
  obtain ⟨pctx, hpc, hpne⟩ := hp
  obtain ⟨cctx, hcc, hcne⟩ := hc
  obtain ⟨pi, pj, hpi, hpj, hpg⟩ := contextE_elim hpc
  obtain ⟨pfirst, hpf⟩ := Option.isSome_iff_exists.mp
    (show pctx.chains.head?.isSome by
      rw [Option.isSome_iff_ne_none, Ne, List.head?_eq_none_iff]; exact hpne)
  obtain ⟨plast, hpl⟩ := Option.isSome_iff_exists.mp
    (show pctx.chains.getLast?.isSome by
      rw [Option.isSome_iff_ne_none, Ne, List.getLast?_eq_none_iff]; exact hpne)
  obtain ⟨cfirst, hcf⟩ := Option.isSome_iff_exists.mp
    (show cctx.chains.head?.isSome by
      rw [Option.isSome_iff_ne_none, Ne, List.head?_eq_none_iff]; exact hcne)
  obtain ⟨clast, hcl⟩ := Option.isSome_iff_exists.mp
    (show cctx.chains.getLast?.isSome by
      rw [Option.isSome_iff_ne_none, Ne, List.getLast?_eq_none_iff]; exact hcne)
  have hps := scoreE_of_contextE hpc
  have hcs := scoreE_of_contextE hcc
  have hkeep : ∀ k ∈ keep ++ [prev], k ∈ keep ∨ k = prev := by
    intro k hk
    rcases List.mem_append.mp hk with hk | hk
    · exact Or.inl hk
    · exact Or.inr (by simpa using hk)
  by_cases h1 : Q.nonneg (Q.mul (Q.sub pctx.score thr) (Q.sub cctx.score thr)) = true
  · by_cases h2 : pfirst ≤ cfirst ∧ cfirst < plast + 1
    · refine ⟨(keep, { prev with history := updAt prev.history pj (fun st => { st with chains := st.chains ++ SelectedCluster.pyDropFrom cctx.chains ((cctx.chains.length : Int) - (((clast + 1 : Nat) : Int) - ((plast + 1 : Nat) : Int))) }) }), ?_, ?_, ?_⟩
      · simp only [SelectedCluster.mergeStep, hps, hcs, hpc, hcc, hpf, hpl, hcf, hcl,
          hpi, hpj, orErr, Except.bind, bind, pure, h1, if_true, if_pos h2]
        rfl
      · refine ⟨_, contextE_updAt hpc hpi hpj _, ?_⟩
        intro hx
        exact hpne (List.append_eq_nil.mp hx).1
      · intro k hk
        exact Or.inl hk
    · by_cases h3 : cfirst = plast + 1
      · refine ⟨(keep, { prev with history := updAt prev.history pj (fun st => { st with chains := st.chains ++ cctx.chains }) }), ?_, ?_, ?_⟩
        · simp only [SelectedCluster.mergeStep, hps, hcs, hpc, hcc, hpf, hpl, hcf, hcl,
            hpi, hpj, orErr, Except.bind, bind, pure, h1, if_true, if_neg h2, if_pos h3]
          rfl
        · refine ⟨_, contextE_updAt hpc hpi hpj _, ?_⟩
          intro hx
          exact hpne (List.append_eq_nil.mp hx).1
        · intro k hk
          exact Or.inl hk
      · refine ⟨(keep ++ [prev], c), ?_, ⟨cctx, hcc, hcne⟩, hkeep⟩
        simp only [SelectedCluster.mergeStep, hps, hcs, hpc, hcc, hpf, hpl, hcf, hcl,
          orErr, Except.bind, bind, pure, h1, if_true, if_neg h2, if_neg h3]
        rfl
  · have h1f : Q.nonneg (Q.mul (Q.sub pctx.score thr) (Q.sub cctx.score thr)) = false :=
      Bool.eq_false_iff.mpr h1
    refine ⟨(keep ++ [prev], c), ?_, ⟨cctx, hcc, hcne⟩, hkeep⟩
    simp only [SelectedCluster.mergeStep, hps, hcs, orErr, Except.bind, bind, pure, h1f,
      Bool.false_eq_true, if_false]
    rfl

theorem mergeFold_ok (thr : Q) :
    ∀ (l : List SummaryCandidate) (acc : List SummaryCandidate × SummaryCandidate),
      (∀ c ∈ l, CandWF c) → CandWF acc.2 → (∀ k ∈ acc.1, CandWF k) →
      ∃ res, l.foldlM (SelectedCluster.mergeStep thr) acc = Except.ok res ∧
        CandWF res.2 ∧ ∀ k ∈ res.1, CandWF k := by
  intro l
  induction l with
  | nil =>
      intro acc _ h2 h3
      exact ⟨acc, rfl, h2, h3⟩
  | cons a t ih =>
      intro acc hl h2 h3
      obtain ⟨keep, prev⟩ := acc
      obtain ⟨res, hres, hwf2, hmem⟩ :=
        mergeStep_ok thr keep prev a h2 (hl a (List.mem_cons_self a t))
      have hkeep : ∀ k ∈ res.1, CandWF k := by
        intro k hk
        rcases hmem k hk with hk2 | hk2
        · exact h3 k hk2
        · exact hk2 ▸ h2
      obtain ⟨res2, hres2, hwf3, hmem3⟩ :=
        ih res (fun c hc => hl c (List.mem_cons_of_mem a hc)) hwf2 hkeep
      refine ⟨res2, ?_, hwf3, hmem3⟩
      rw [List.foldlM_cons, hres]
      simp only [Except.bind, bind]
      exact hres2

theorem rescore_ok (env : Env) (cl : SelectedCluster)
    (h : ∀ c ∈ cl.candidates, CandWF c) :
    ∃ cl2, SelectedCluster.rescore_candidates env cl = Except.ok cl2 ∧
      ∀ c ∈ cl2.candidates, CandWF c := by
  have hexp : ∀ a ∈ cl.candidates, ∃ b,
      (do
        let s ← orErr a.selected_state PyErr.typeError
        let j ← orErr (pyIdx a.history.length s) PyErr.indexError
        pure { a with history :=
                 updAt a.history j (fun st => { st with score := env.oracle st.chains }) }
        : Except PyErr SummaryCandidate) = Except.ok b := by
    intro a ha
    obtain ⟨ctx, hctx, hcne⟩ := h a ha
    obtain ⟨i, j, hi, hj, hg⟩ := contextE_elim hctx
    refine ⟨{ a with history := updAt a.history j (fun st => { st with score := env.oracle st.chains }) }, ?_⟩
    simp only [hi, hj, orErr, Except.bind, bind, pure]
    rfl
  obtain ⟨bs, hbs, hblen, hbmem⟩ := mapM_ok hexp
  refine ⟨⟨bs⟩, ?_, ?_⟩
  · simp only [SelectedCluster.rescore_candidates]
    rw [hbs]
    rfl
  · intro c hc
    obtain ⟨a, ha, hfa⟩ := hbmem c hc
    obtain ⟨ctx, hctx, hcne⟩ := h a ha
    obtain ⟨i, j, hi, hj, hg⟩ := contextE_elim hctx
    simp only [hi, hj, orErr, Except.bind, bind, pure, Except.pure, Except.ok.injEq] at hfa
    refine ⟨{ ctx with score := env.oracle ctx.chains }, ?_, hcne⟩
    rw [← hfa, ← hi]
    exact contextE_updAt hctx hi hj _

theorem rerank_ok (cl : SelectedCluster)
    (h : ∀ c ∈ cl.candidates, CandWF c) :
    ∃ cl2, SelectedCluster.rerank_candidates cl = Except.ok cl2 := by
  have hexp : ∀ a ∈ cl.candidates, ∃ b,
      (do
        let s ← a.scoreE
        pure (a, s) : Except PyErr (SummaryCandidate × Q)) = Except.ok b := by
    intro a ha
    obtain ⟨ctx, hctx, _⟩ := h a ha
    exact ⟨(a, ctx.score), by
      simp only [scoreE_of_contextE hctx, Except.bind, bind, pure]
      rfl⟩
  obtain ⟨bs, hbs, hblen, hbmem⟩ := mapM_ok hexp
  refine ⟨⟨(ssort SelectedCluster.rerankLE bs).map (fun p => p.1)⟩, ?_⟩
  simp only [SelectedCluster.rerank_candidates]
  rw [hbs]
  rfl

theorem mergePairF_elim {a : SummaryCandidate} {b : SummaryCandidate × Nat}
    (h : (do
      let ctx ← a.contextE
      let f ← orErr ctx.chains.head? PyErr.indexError
      pure (a, f) : Except PyErr (SummaryCandidate × Nat)) = Except.ok b) :
    b.1 = a := by
  cases hctx : a.contextE with
  | error e =>
      simp only [hctx, Except.bind, bind] at h
      exact Except.noConfusion h
  | ok ctx =>
      simp only [hctx, Except.bind, bind] at h
      cases hh : ctx.chains.head? with
      | none =>
          simp only [hh, orErr] at h
          exact Except.noConfusion h
      | some f =>
          simp only [hh, orErr, pure, Except.pure, Except.ok.injEq] at h
          rw [← h]

/-- C10: `merge_candidates` reads `candidates[0]` unconditionally, so on an
empty candidates list it raises IndexError instead of returning the cluster
unchanged; on a non-empty list of well-formed candidates (each selection
resolving to a state with a non-empty window, as every constructed candidate
has) every list access of the merge scan is in bounds and the whole
operation — sort, merge fold, rescore, rerank — completes normally. -/
theorem merge_candidates_safety (env : Env) (thr : Q) (cl : SelectedCluster) :
    (cl.candidates = [] →
      SelectedCluster.merge_candidates env cl thr = Except.error PyErr.indexError) ∧
    ((∀ c ∈ cl.candidates, CandWF c) → cl.candidates ≠ [] →
      ∃ cl2, SelectedCluster.merge_candidates env cl thr = Except.ok cl2) := by
  constructor
  · intro hemp
    obtain ⟨cands⟩ := cl
    simp only at hemp
    subst hemp
    rfl
  · intro hwf hne
    have hpair : ∀ a ∈ cl.candidates, ∃ b : SummaryCandidate × Nat,
        (do
          let ctx ← a.contextE
          let f ← orErr ctx.chains.head? PyErr.indexError
          pure (a, f) : Except PyErr (SummaryCandidate × Nat)) = Except.ok b := by
      intro a ha
      obtain ⟨ctx, hctx, hcne⟩ := hwf a ha
      obtain ⟨fst, hfst⟩ := Option.isSome_iff_exists.mp
        (show ctx.chains.head?.isSome by
          rw [Option.isSome_iff_ne_none, Ne, List.head?_eq_none_iff]; exact hcne)
      refine ⟨(a, fst), ?_⟩
      simp only [hctx, hfst, orErr, Except.bind, bind, pure]
      rfl
    obtain ⟨pairs, hpairs, hplen, hpmem⟩ := mapM_ok hpair
    have hpne : pairs ≠ [] := by
      intro hc
      rw [hc] at hplen
      exact hne (List.length_eq_zero.mp hplen.symm)
    have hsne : ((ssort SelectedCluster.firstIndexLE pairs).map (fun p => p.1)) ≠ [] := by
      intro hc
      exact ssort_ne_nil hpne (List.map_eq_nil.mp hc)
    obtain ⟨first, rest, hsorted⟩ := List.exists_cons_of_ne_nil hsne
    have hswf : ∀ x ∈ (ssort SelectedCluster.firstIndexLE pairs).map (fun p => p.1),
        CandWF x := by
      intro x hx
      obtain ⟨p, hp, hpx⟩ := List.mem_map.mp hx
      obtain ⟨a, ha, hfa⟩ := hpmem p (mem_ssort.mp hp)
      have hp1 := mergePairF_elim hfa
      rw [← hpx, hp1]
      exact hwf a ha
    have hfirstwf : CandWF first := hswf first (hsorted ▸ List.mem_cons_self _ _)
    have hrestwf : ∀ c ∈ rest, CandWF c := fun c hc =>
      hswf c (hsorted ▸ List.mem_cons_of_mem _ hc)
    obtain ⟨acc, hacc, haccwf, hkeepwf⟩ :=
      mergeFold_ok thr rest ([], first) hrestwf hfirstwf (by simp)
    have hclwf : ∀ c ∈ (SelectedCluster.mk (acc.1 ++ [acc.2])).candidates, CandWF c := by
      intro c hc
      rcases List.mem_append.mp hc with hc | hc
      · exact hkeepwf c hc
      · have hcc : c = acc.2 := by simpa using hc
        exact hcc ▸ haccwf
    obtain ⟨clR, hclR, hclRwf⟩ := rescore_ok env ⟨acc.1 ++ [acc.2]⟩ hclwf
    obtain ⟨clF, hclF⟩ := rerank_ok clR hclRwf
    refine ⟨clF, ?_⟩
    simp only [SelectedCluster.merge_candidates]
    rw [hpairs]
    simp only [Except.bind, bind, Except.pure, hsorted, List.head?_cons, orErr,
      List.drop_one, List.tail_cons]
    rw [hacc]
    simp only [hclR, Except.bind, bind]
    exact hclF

/-- Environment for the merge witness: 5 units, score = window length. -/
def c10env : Env := ⟨5, fun l => ⟨(l.length : Int), 1⟩, fun l => l.length⟩

/-- Fresh candidate anchored at unit 0. -/
def c10a : SummaryCandidate := ⟨0, some (-1), [⟨[0], ⟨1, 2⟩, [], 0, default⟩], true⟩

/-- Fresh candidate anchored at unit 2. -/
def c10b : SummaryCandidate := ⟨2, some (-1), [⟨[2], ⟨3, 4⟩, [], 0, default⟩], true⟩

/-- A two-candidate cluster for the merge witness. -/
def c10cl : SelectedCluster := ⟨[c10a, c10b]⟩

theorem merge_candidates_safety_witness :
    SelectedCluster.merge_candidates c10env ⟨[]⟩ ⟨1, 1⟩ = Except.error PyErr.indexError ∧
    ∃ cl2, SelectedCluster.merge_candidates c10env c10cl ⟨1, 1⟩ = Except.ok cl2 := by
  constructor
  · exact (merge_candidates_safety c10env ⟨1, 1⟩ ⟨[]⟩).1 rfl
  · refine (merge_candidates_safety c10env ⟨1, 1⟩ c10cl).2 ?_ (by decide)
    intro c hc
    have hor : c = c10a ∨ c = c10b := by
      simpa [c10cl] using hc
    rcases hor with h | h
    · exact h ▸ ⟨⟨[0], ⟨1, 2⟩, [], 0, default⟩, by decide, by decide⟩
    · exact h ▸ ⟨⟨[2], ⟨3, 4⟩, [], 0, default⟩, by decide, by decide⟩

theorem sinsert_chain {le : α → α → Bool}
    (htot : ∀ x y : α, le x y = false → le y x = true) (x : α) :
    ∀ {l : List α}, l.Chain' (fun a b => le a b = true) →
      (sinsert le x l).Chain' (fun a b => le a b = true) := by
  intro l
  induction l with
  | nil =>
      intro _
      simp [sinsert]
  | cons y ys ih =>
      intro hch
      unfold sinsert
      by_cases hxy : le x y = true
      · rw [if_pos hxy]
        exact List.chain'_cons.mpr ⟨hxy, hch⟩
      · rw [if_neg hxy]
        have hyx : le y x = true := htot x y (Bool.eq_false_iff.mpr hxy)
        have htail := ih hch.tail
        cases ys with
        | nil =>
            exact List.chain'_cons.mpr ⟨hyx, htail⟩
        | cons z zs =>
            have hyz : le y z = true := (List.chain'_cons.mp hch).1
            unfold sinsert
            unfold sinsert at htail
            by_cases hxz : le x z = true
            · rw [if_pos hxz]
              rw [if_pos hxz] at htail
              exact List.chain'_cons.mpr ⟨hyx, htail⟩
            · rw [if_neg hxz]
              rw [if_neg hxz] at htail
              exact List.chain'_cons.mpr ⟨hyz, htail⟩

theorem ssort_chain {le : α → α → Bool}
    (htot : ∀ x y : α, le x y = false → le y x = true) :
    ∀ (l : List α), (ssort le l).Chain' (fun a b => le a b = true) := by
  intro l
  induction l with
  | nil => exact List.chain'_nil
  | cons x xs ih =>
      unfold ssort
      exact sinsert_chain htot x ih

theorem ssort_of_chain {le : α → α → Bool} :
    ∀ {l : List α}, l.Chain' (fun a b => le a b = true) → ssort le l = l := by
  intro l
  induction l with
  | nil => intro _; rfl
  | cons x xs ih =>
      intro h
      unfold ssort
      rw [ih h.tail]
      cases xs with
      | nil => rfl
      | cons y ys =>
          unfold sinsert
          rw [if_pos (List.chain'_cons.mp h).1]

theorem chain_rel_all {R : α → α → Prop} {P : α → Prop}
    (htr : ∀ x y z, P x → P y → P z → R x y → R y z → R x z) :
    ∀ {xs : List α} {x : α}, P x → (∀ y ∈ xs, P y) → List.Chain R x xs →
      ∀ y ∈ xs, R x y := by
  intro xs
  induction xs with
  | nil =>
      intro x _ _ _ y hy
      cases hy
  | cons z zs ih =>
      intro x hPx hPs hch y hy
      cases hch with
      | cons hxz hch2 =>
          rcases List.mem_cons.mp hy with hy | hy
          · exact hy ▸ hxz
          · have hPz := hPs z (List.mem_cons_self z zs)
            have hzy := ih hPz (fun w hw => hPs w (List.mem_cons_of_mem z hw)) hch2 y hy
            exact htr x z y hPx hPz (hPs y (List.mem_cons_of_mem z hy)) hxz hzy

theorem chain_pairwise_of_trans {R : α → α → Prop} {P : α → Prop}
    (htr : ∀ x y z, P x → P y → P z → R x y → R y z → R x z) :
    ∀ {l : List α}, (∀ x ∈ l, P x) → l.Chain' R → l.Pairwise R := by
  intro l
  induction l with
  | nil =>
      intro _ _
      exact List.Pairwise.nil
  | cons x xs ih =>
      intro hP hch
      refine List.Pairwise.cons ?_ (ih (fun y hy => hP y (List.mem_cons_of_mem x hy)) hch.tail)
      exact chain_rel_all htr (hP x (List.mem_cons_self x xs))
        (fun y hy => hP y (List.mem_cons_of_mem x hy)) hch

theorem Q.lt_trans' {a b c : Q} (ha : 0 < a.den) (hb : 0 < b.den) (hc : 0 < c.den)
    (h1 : Q.lt a b = true) (h2 : Q.lt b c = true) : Q.lt a c = true := by
  simp only [Q.lt, decide_eq_true_eq] at h1 h2 ⊢
  have had : (0 : Int) < a.den := by exact_mod_cast ha
  have hbd : (0 : Int) < b.den := by exact_mod_cast hb
  have hcd : (0 : Int) < c.den := by exact_mod_cast hc
  nlinarith [mul_lt_mul_of_pos_right h1 hcd, mul_lt_mul_of_pos_right h2 had]

theorem Q.lt_of_lt_of_eqv {a b c : Q} (ha : 0 < a.den) (hb : 0 < b.den) (hc : 0 < c.den)
    (h1 : Q.lt a b = true) (h2 : Q.eqv b c = true) : Q.lt a c = true := by
  simp only [Q.lt, Q.eqv, decide_eq_true_eq] at h1 h2 ⊢
  have had : (0 : Int) < a.den := by exact_mod_cast ha
  have hbd : (0 : Int) < b.den := by exact_mod_cast hb
  have hcd : (0 : Int) < c.den := by exact_mod_cast hc
  nlinarith [mul_lt_mul_of_pos_right h1 hcd, congrArg (fun t => t * (a.den : Int)) h2]

theorem Q.lt_of_eqv_of_lt {a b c : Q} (ha : 0 < a.den) (hb : 0 < b.den) (hc : 0 < c.den)
    (h1 : Q.eqv a b = true) (h2 : Q.lt b c = true) : Q.lt a c = true := by
  simp only [Q.lt, Q.eqv, decide_eq_true_eq] at h1 h2 ⊢
  have had : (0 : Int) < a.den := by exact_mod_cast ha
  have hbd : (0 : Int) < b.den := by exact_mod_cast hb
  have hcd : (0 : Int) < c.den := by exact_mod_cast hc
  nlinarith [mul_lt_mul_of_pos_right h2 had, congrArg (fun t => t * (c.den : Int)) h1]

theorem Q.eqv_trans' {a b c : Q} (ha : 0 < a.den) (hb : 0 < b.den) (hc : 0 < c.den)
    (h1 : Q.eqv a b = true) (h2 : Q.eqv b c = true) : Q.eqv a c = true := by
  simp only [Q.eqv, decide_eq_true_eq] at h1 h2 ⊢
  have hbd : (0 : Int) < b.den := by exact_mod_cast hb
  have h3 : a.num * c.den * b.den = c.num * a.den * b.den := by
    nlinarith [congrArg (fun t => t * (c.den : Int)) h1, congrArg (fun t => t * (a.den : Int)) h2]
  exact mul_right_cancel₀ (ne_of_gt hbd) h3

theorem rerankLE_total (x y : SummaryCandidate × Q)
    (h : SelectedCluster.rerankLE x y = false) : SelectedCluster.rerankLE y x = true := by
  simp only [SelectedCluster.rerankLE, Bool.or_eq_false_iff, Bool.and_eq_false_iff,
    Bool.or_eq_true, Bool.and_eq_true, Q.lt, Q.eqv, decide_eq_true_eq,
    decide_eq_false_iff_not] at h ⊢
  obtain ⟨hlt, hrest⟩ := h
  rcases lt_trichotomy (x.2.num * (y.2.den : Int)) (y.2.num * (x.2.den : Int)) with ht | ht | ht
  · exact Or.inl ht
  · refine Or.inr ⟨ht, ?_⟩
    rcases hrest with hne | hle
    · exact absurd ht.symm hne
    · omega
  · exact absurd ht hlt

theorem rerankLE_trans {x y z : SummaryCandidate × Q}
    (hx : 0 < x.2.den) (hy : 0 < y.2.den) (hz : 0 < z.2.den)
    (h1 : SelectedCluster.rerankLE x y = true) (h2 : SelectedCluster.rerankLE y z = true) :
    SelectedCluster.rerankLE x z = true := by
  simp only [SelectedCluster.rerankLE, Bool.or_eq_true, Bool.and_eq_true,
    decide_eq_true_eq] at h1 h2 ⊢
  rcases h1 with h1 | ⟨h1e, h1t⟩
  · rcases h2 with h2 | ⟨h2e, h2t⟩
    · exact Or.inl (Q.lt_trans' hz hy hx h2 h1)
    · exact Or.inl (Q.lt_of_eqv_of_lt hz hy hx h2e h1)
  · rcases h2 with h2 | ⟨h2e, h2t⟩
    · exact Or.inl (Q.lt_of_lt_of_eqv hz hy hx h2 h1e)
    · exact Or.inr ⟨Q.eqv_trans' hz hy hx h2e h1e, le_trans h2t h1t⟩

theorem rerankPairF_elim {a : SummaryCandidate} {b : SummaryCandidate × Q}
    (h : (do
      let s ← a.scoreE
      pure (a, s) : Except PyErr (SummaryCandidate × Q)) = Except.ok b) :
    b.1 = a ∧ a.scoreE = Except.ok b.2 := by
  cases hs : a.scoreE with
  | error e =>
      simp only [hs, Except.bind, bind] at h
      exact Except.noConfusion h
  | ok s =>
      simp only [hs, Except.bind, bind, pure, Except.pure, Except.ok.injEq] at h
      rw [← h]
      exact ⟨rfl, rfl⟩

theorem rezip_eq {l : List (SummaryCandidate × Q)}
    (h : ∀ p ∈ l, p.1.scoreE = Except.ok p.2) :
    (l.map (fun p => p.1)).mapM
      (fun c => (do
        let s ← c.scoreE
        pure (c, s) : Except PyErr (SummaryCandidate × Q))) = Except.ok l := by
  induction l with
  | nil => rfl
  | cons p t ih =>
      rw [List.map_cons, List.mapM_cons, ih (fun q hq => h q (List.mem_cons_of_mem p hq))]
      simp only [h p (List.mem_cons_self p t), Except.bind, bind, pure, Except.pure]

/-- C8: on any cluster whose candidates all have a resolvable score (a
well-formed fraction), `rerank_candidates` succeeds, running it a second
time returns the very same cluster (idempotence), and the resulting
candidate order is pairwise sorted by score descending with ties broken by
the lower anchor chain index first. -/
theorem rerank_idempotent_and_sorted (cl : SelectedCluster)
    (h : ∀ c ∈ cl.candidates, ∃ s, c.scoreE = Except.ok s ∧ 0 < s.den) :
    ∃ cl1, SelectedCluster.rerank_candidates cl = Except.ok cl1 ∧
      SelectedCluster.rerank_candidates cl1 = Except.ok cl1 ∧
      List.Pairwise (fun x y => ∃ sx sy, x.scoreE = Except.ok sx ∧
        y.scoreE = Except.ok sy ∧
        (Q.lt sy sx = true ∨ (Q.eqv sy sx = true ∧ x.chain ≤ y.chain)))
        cl1.candidates := by
  have hexp : ∀ a ∈ cl.candidates, ∃ b,
      (do
        let s ← a.scoreE
        pure (a, s) : Except PyErr (SummaryCandidate × Q)) = Except.ok b := by
    intro a ha
    obtain ⟨s, hs, _⟩ := h a ha
    refine ⟨(a, s), ?_⟩
    simp only [hs, Except.bind, bind, pure]
    rfl
  obtain ⟨pairs, hpairs, hplen, hpmem⟩ := mapM_ok hexp
  have hfacts : ∀ p ∈ ssort SelectedCluster.rerankLE pairs,
      p.1.scoreE = Except.ok p.2 ∧ 0 < p.2.den := by
    intro p hp
    obtain ⟨a, ha, hfa⟩ := hpmem p (mem_ssort.mp hp)
    obtain ⟨h1, h2⟩ := rerankPairF_elim hfa
    obtain ⟨s, hs, hden⟩ := h a ha
    rw [hs] at h2
    injection h2 with h3
    exact ⟨by rw [h1, hs, h3], h3 ▸ hden⟩
  have hchain : (ssort SelectedCluster.rerankLE pairs).Chain'
      (fun a b => SelectedCluster.rerankLE a b = true) :=
    ssort_chain rerankLE_total pairs
  have hpw : (ssort SelectedCluster.rerankLE pairs).Pairwise
      (fun a b => SelectedCluster.rerankLE a b = true) := by
    refine chain_pairwise_of_trans ?_ (fun x hx => hfacts x hx) hchain
    intro x y z hx hy hz h1 h2
    exact rerankLE_trans hx.2 hy.2 hz.2 h1 h2
  refine ⟨⟨(ssort SelectedCluster.rerankLE pairs).map (fun p => p.1)⟩, ?_, ?_, ?_⟩
  · simp only [SelectedCluster.rerank_candidates]
    rw [hpairs]
    rfl
  · simp only [SelectedCluster.rerank_candidates]
    rw [rezip_eq (fun p hp => (hfacts p hp).1)]
    simp only [Except.bind, bind, pure, Except.pure]
    rw [ssort_of_chain hchain]
  · rw [List.pairwise_map]
    refine hpw.imp_of_mem ?_
    intro p q hp hq hr
    obtain ⟨hps, hpd⟩ := hfacts p hp
    obtain ⟨hqs, hqd⟩ := hfacts q hq
    refine ⟨p.2, q.2, hps, hqs, ?_⟩
    simp only [SelectedCluster.rerankLE, Bool.or_eq_true, Bool.and_eq_true,
      decide_eq_true_eq] at hr
    rcases hr with hr | ⟨hre, hrt⟩
    · exact Or.inl hr
    · refine Or.inr ⟨hre, ?_⟩
      omega

/-- Low-score candidate anchored at chain 1 for the rerank witness. -/
def c8a : SummaryCandidate := ⟨1, some (-1), [⟨[1], ⟨1, 2⟩, [], 0, default⟩], true⟩

/-- High-score candidate anchored at chain 3 for the rerank witness. -/
def c8b : SummaryCandidate := ⟨3, some (-1), [⟨[3], ⟨5, 2⟩, [], 0, default⟩], true⟩

/-- A two-candidate cluster for the rerank witness. -/
def c8cl : SelectedCluster := ⟨[c8a, c8b]⟩

theorem rerank_idempotent_and_sorted_witness :
    ∃ cl1, SelectedCluster.rerank_candidates c8cl = Except.ok cl1 ∧
      SelectedCluster.rerank_candidates cl1 = Except.ok cl1 ∧
      List.Pairwise (fun x y => ∃ sx sy, x.scoreE = Except.ok sx ∧
        y.scoreE = Except.ok sy ∧
        (Q.lt sy sx = true ∨ (Q.eqv sy sx = true ∧ x.chain ≤ y.chain)))
        cl1.candidates := by
  refine rerank_idempotent_and_sorted c8cl ?_
  intro c hc
  have hor : c = c8a ∨ c = c8b := by simpa [c8cl] using hc
  rcases hor with h | h
  · exact h ▸ ⟨⟨1, 2⟩, by decide, by decide⟩
  · exact h ▸ ⟨⟨5, 2⟩, by decide, by decide⟩

/-! Optimization claims. -/

theorem Q.lt_irrefl' (a : Q) : Q.lt a a = false := by
  simp [Q.lt]

theorem Q.lt_of_lt_of_nlt {a b c : Q} (ha : 0 < a.den) (hb : 0 < b.den) (hc : 0 < c.den)
    (h1 : Q.lt a b = true) (h2 : Q.lt c b = false) : Q.lt a c = true := by
  simp only [Q.lt, decide_eq_true_eq, decide_eq_false_iff_not] at h1 h2 ⊢
  push_neg at h2
  have had : (0 : Int) < a.den := by exact_mod_cast ha
  have hbd : (0 : Int) < b.den := by exact_mod_cast hb
  have hcd : (0 : Int) < c.den := by exact_mod_cast hc
  nlinarith [mul_lt_mul_of_pos_right h1 hcd, mul_le_mul_of_nonneg_right h2 had.le]

theorem getD_mem_or_default (l : List α) : ∀ (i : Nat) (d : α),
    l.getD i d ∈ l ∨ l.getD i d = d := by
  induction l with
  | nil =>
      intro i d
      right
      cases i <;> rfl
  | cons a t ih =>
      intro i d
      cases i with
      | zero =>
          left
          simp [List.getD_cons_zero]
      | succ i =>
          rw [List.getD_cons_succ]
          rcases ih i d with h | h
          · exact Or.inl (List.mem_cons_of_mem a h)
          · exact Or.inr h

theorem mem_updAt {f : α → α} :
    ∀ {l : List α} {j : Nat} {s : α}, s ∈ updAt l j f → s ∈ l ∨ ∃ t, t ∈ l ∧ s = f t := by
  intro l
  induction l with
  | nil =>
      intro j s hs
      cases hs
  | cons a t ih =>
      intro j s hs
      cases j with
      | zero =>
          rcases List.mem_cons.mp hs with hs | hs
          · exact Or.inr ⟨a, List.mem_cons_self a t, hs⟩
          · exact Or.inl (List.mem_cons_of_mem a hs)
      | succ j =>
          rcases List.mem_cons.mp hs with hs | hs
          · exact Or.inl (hs ▸ List.mem_cons_self a t)
          · rcases ih hs with h | ⟨u, hu, hfu⟩
            · exact Or.inl (List.mem_cons_of_mem a h)
            · exact Or.inr ⟨u, List.mem_cons_of_mem a hu, hfu⟩

theorem argmaxFold_mem {key : Nat → Q} :
    ∀ (l : List Nat) (b : Nat),
      l.foldl (fun best j => if Q.lt (key best) (key j) then j else best) b ∈ b :: l := by
  intro l
  induction l with
  | nil =>
      intro b
      exact List.mem_cons_self b []
  | cons j js ih =>
      intro b
      rw [List.foldl_cons]
      by_cases h : Q.lt (key b) (key j) = true
      · rw [if_pos h]
        have h2 := ih j
        simp only [List.mem_cons] at h2 ⊢
        tauto
      · rw [if_neg h]
        have h2 := ih b
        simp only [List.mem_cons] at h2 ⊢
        tauto

theorem argmaxFold_spec {key : Nat → Q} (hwf : ∀ i, 0 < (key i).den) :
    ∀ (l : List Nat) (b : Nat),
      Q.lt (key (l.foldl (fun best j => if Q.lt (key best) (key j) then j else best) b))
        (key b) = false ∧
      ∀ i ∈ l,
        Q.lt (key (l.foldl (fun best j => if Q.lt (key best) (key j) then j else best) b))
          (key i) = false := by
  intro l
  induction l with
  | nil =>
      intro b
      refine ⟨Q.lt_irrefl' _, ?_⟩
      intro i hi
      cases hi
  | cons j js ih =>
      intro b
      rw [List.foldl_cons]
      by_cases hbj : Q.lt (key b) (key j) = true
      · rw [if_pos hbj]
        obtain ⟨h1, h2⟩ := ih j
        refine ⟨?_, ?_⟩
        · refine Bool.eq_false_iff.mpr (fun hcon => ?_)
          exact Bool.eq_false_iff.mp h1
            (Q.lt_trans' (hwf _) (hwf _) (hwf _) hcon hbj)
        · intro i hi
          rcases List.mem_cons.mp hi with hi | hi
          · exact hi ▸ h1
          · exact h2 i hi
      · rw [if_neg hbj]
        obtain ⟨h1, h2⟩ := ih b
        refine ⟨h1, ?_⟩
        intro i hi
        rcases List.mem_cons.mp hi with hi | hi
        · subst hi
          refine Bool.eq_false_iff.mpr (fun hcon => ?_)
          exact Bool.eq_false_iff.mp h1
            (Q.lt_of_lt_of_nlt (hwf _) (hwf _) (hwf _) hcon (Bool.eq_false_iff.mpr hbj))
        · exact h2 i hi

theorem argmaxFirst_spec {key : Nat → Q} (hwf : ∀ i, 0 < (key i).den)
    {l : List Nat} {m : Nat} (hm : SummaryCandidate.argmaxFirst key l = some m) :
    m ∈ l ∧ ∀ i ∈ l, Q.lt (key m) (key i) = false := by
  cases l with
  | nil => exact Option.noConfusion hm
  | cons b js =>
      unfold SummaryCandidate.argmaxFirst at hm
      injection hm with hm
      subst hm
      obtain ⟨h1, h2⟩ := argmaxFold_spec hwf js b
      refine ⟨argmaxFold_mem js b, ?_⟩
      intro i hi
      rcases List.mem_cons.mp hi with hi | hi
      · exact hi ▸ h1
      · exact h2 i hi

theorem argmaxFirst_none {key : Nat → Q} :
    ∀ {l : List Nat}, SummaryCandidate.argmaxFirst key l = none → l = [] := by
  intro l hm
  cases l with
  | nil => rfl
  | cons b js => exact Option.noConfusion hm

/-- Candidate for the optimize counterexample: two states over unit 0; the
earlier state's improvement density already equals the default threshold,
the selected (later) state's is below it. -/
def c3cand : SummaryCandidate :=
  ⟨0, some 1, [⟨[0], ⟨0, 1⟩, [], 0, ⟨1, 100⟩⟩, ⟨[0], ⟨0, 1⟩, [], 0, ⟨0, 1⟩⟩], true⟩

/-- The candidate `optimize` actually produces from `c3cand`. -/
def c3res : SummaryCandidate :=
  ⟨0, some 0, [⟨[0], ⟨0, 1⟩, [], 0, ⟨1, 100⟩⟩, ⟨[0], ⟨0, 1⟩, [], 0, ⟨1, 100⟩⟩], true⟩

/-- Counterexample for C3: no filtered state's improvement density strictly
exceeds the threshold, yet `optimize` does not retain the currently selected
state 1 — it moves the selection to state 0, because the current state is
only assigned density = threshold and Python's `max` breaks the resulting
tie in favour of the earliest index. -/
theorem optimize_retention_cex :
    c3cand.selected_state = some 1 ∧
    (∀ i ∈ SummaryCandidate.optTemp c3cand SummaryCandidate.OptArgs.dflt,
      Q.lt SummaryCandidate.OptArgs.dflt.threshold
        ((c3cand.history.getD i default).improvement_score) = false) ∧
    SummaryCandidate.optimize c3cand SummaryCandidate.OptArgs.dflt =
      Except.ok (c3res, some 0) := by
  refine ⟨rfl, by decide, by decide⟩

/-- Symbolic run of `optimize` for a candidate whose selection resolves:
threshold assignment, first-maximum selection, exhaustion and the
stop-expansion freeze, stated as one disjunction. -/
theorem optimize_run (c : SummaryCandidate) (args : SummaryCandidate.OptArgs)
    (sel : Int) (j : Nat)
    (hsel : c.selected_state = some sel) (hj : pyIdx c.history.length sel = some j)
    (hwf : ∀ s ∈ c.history, 0 < s.improvement_score.den)
    (hthr : 0 < args.threshold.den) :
    ∃ c2 r, SummaryCandidate.optimize c args = Except.ok (c2, r) ∧
      c2.history = updAt c.history j
        (fun s => { s with improvement_score := args.threshold }) ∧
      ((SummaryCandidate.optTemp c args = [] ∧ r = none ∧
          c2.selected_state = some sel ∧ c2.expandable = false) ∨
       (∃ m, r = some m ∧ c2.selected_state = some ((m : Nat) : Int) ∧
          m ∈ SummaryCandidate.optTemp c args ∧
          (∀ i ∈ SummaryCandidate.optTemp c args,
            Q.lt ((c2.history.getD m default).improvement_score)
              ((c2.history.getD i default).improvement_score) = false) ∧
          c2.expandable =
            (if (args.stop_expansion && (some sel == some ((m : Nat) : Int))) = true
             then false else c.expandable))) := by
  have hkey : ∀ i, 0 <
      (((updAt c.history j (fun s => { s with improvement_score := args.threshold })).getD
        i default).improvement_score).den := by
    intro i
    rcases getD_mem_or_default
        (updAt c.history j (fun s => { s with improvement_score := args.threshold })) i default
      with h | h
    · rcases mem_updAt h with h2 | ⟨t, ht, hft⟩
      · exact hwf _ h2
      · rw [hft]
        exact hthr
    · rw [h]
      decide
  cases hm : SummaryCandidate.argmaxFirst
      (fun i => (((updAt c.history j
        (fun s => { s with improvement_score := args.threshold })).getD
        i default).improvement_score))
      (SummaryCandidate.optTemp c args) with
  | none =>
      have htemp := argmaxFirst_none hm
      refine ⟨⟨c.chain, some sel,
          updAt c.history j (fun s => { s with improvement_score := args.threshold }),
          false⟩, none, ?_, rfl, Or.inl ⟨htemp, rfl, rfl, rfl⟩⟩
      simp only [SummaryCandidate.optimize, hsel, hj, orErr, Except.bind, bind, pure,
        Except.pure, hm]
  | some m =>
      obtain ⟨hmem, hmax⟩ := argmaxFirst_spec hkey hm
      by_cases hstop : (args.stop_expansion && (some sel == some ((m : Nat) : Int))) = true
      · refine ⟨⟨c.chain, some ((m : Nat) : Int),
            updAt c.history j (fun s => { s with improvement_score := args.threshold }),
            false⟩, some m, ?_, rfl, Or.inr ⟨m, rfl, rfl, hmem, hmax, ?_⟩⟩
        · simp only [SummaryCandidate.optimize, hsel, hj, orErr, Except.bind, bind, pure,
            Except.pure, hm, hstop, if_true]
        · rw [if_pos hstop]
      · have hstopf : (args.stop_expansion && (some sel == some ((m : Nat) : Int))) = false :=
          Bool.eq_false_iff.mpr hstop
        refine ⟨⟨c.chain, some ((m : Nat) : Int),
            updAt c.history j (fun s => { s with improvement_score := args.threshold }),
            c.expandable⟩, some m, ?_, rfl, Or.inr ⟨m, rfl, rfl, hmem, hmax, ?_⟩⟩
        · simp only [SummaryCandidate.optimize, hsel, hj, orErr, Except.bind, bind, pure,
            Except.pure, hm, hstopf, Bool.false_eq_true, if_false]
        · rw [if_neg hstop]


/-- C3 (amended): for a candidate whose selection resolves, `optimize` first
overwrites the selected state's improvement density with the threshold and
then takes the FIRST index of maximal density among the filtered states (so
the current state is retained only if no filtered state has a strictly
greater density than it and no earlier filtered state ties with it); if no
state passes the filters the candidate becomes non-expandable, the selection
is left unchanged and no selection is returned; with stop_expansion the
candidate becomes non-expandable exactly when the raw new index equals the
raw old one (the `-1` sentinel never compares equal to a positive index). -/
theorem optimize_first_max (c : SummaryCandidate) (args : SummaryCandidate.OptArgs)
    (sel : Int) (j : Nat)
    (hsel : c.selected_state = some sel) (hj : pyIdx c.history.length sel = some j)
    (hwf : ∀ s ∈ c.history, 0 < s.improvement_score.den)
    (hthr : 0 < args.threshold.den) :
    ∃ c2 r, SummaryCandidate.optimize c args = Except.ok (c2, r) ∧
      c2.history = updAt c.history j
        (fun s => { s with improvement_score := args.threshold }) ∧
      ((SummaryCandidate.optTemp c args = [] ∧ r = none ∧
          c2.selected_state = some sel ∧ c2.expandable = false) ∨
       (∃ m, r = some m ∧ c2.selected_state = some ((m : Nat) : Int) ∧
          m ∈ SummaryCandidate.optTemp c args ∧
          (∀ i ∈ SummaryCandidate.optTemp c args,
            Q.lt ((c2.history.getD m default).improvement_score)
              ((c2.history.getD i default).improvement_score) = false) ∧
          c2.expandable =
            (if (args.stop_expansion && (some sel == some ((m : Nat) : Int))) = true
             then false else c.expandable))) :=
  optimize_run c args sel j hsel hj hwf hthr

theorem optimize_first_max_witness :
    ∃ c2 r, SummaryCandidate.optimize c3cand SummaryCandidate.OptArgs.dflt =
        Except.ok (c2, r) ∧
      c2.history = updAt c3cand.history 1
        (fun s => { s with improvement_score := SummaryCandidate.OptArgs.dflt.threshold }) ∧
      ((SummaryCandidate.optTemp c3cand SummaryCandidate.OptArgs.dflt = [] ∧ r = none ∧
          c2.selected_state = some 1 ∧ c2.expandable = false) ∨
       (∃ m, r = some m ∧ c2.selected_state = some ((m : Nat) : Int) ∧
          m ∈ SummaryCandidate.optTemp c3cand SummaryCandidate.OptArgs.dflt ∧
          (∀ i ∈ SummaryCandidate.optTemp c3cand SummaryCandidate.OptArgs.dflt,
            Q.lt ((c2.history.getD m default).improvement_score)
              ((c2.history.getD i default).improvement_score) = false) ∧
          c2.expandable =
            (if (SummaryCandidate.OptArgs.dflt.stop_expansion &&
                (some 1 == some ((m : Nat) : Int))) = true
             then false else c3cand.expandable))) :=
  optimize_first_max c3cand SummaryCandidate.OptArgs.dflt 1 1 rfl (by decide)
    (by decide) (by decide)

/-! Selected-index validity claims. -/

theorem sinsert_perm (le : α → α → Bool) (x : α) :
    ∀ (l : List α), (sinsert le x l).Perm (x :: l) := by
  intro l
  induction l with
  | nil => exact List.Perm.refl _
  | cons y ys ih =>
      unfold sinsert
      by_cases h : le x y = true
      · rw [if_pos h]
      · rw [if_neg h]
        exact (ih.cons y).trans (List.Perm.swap x y ys)

theorem ssort_perm (le : α → α → Bool) :
    ∀ (l : List α), (ssort le l).Perm l := by
  intro l
  induction l with
  | nil => exact List.Perm.refl _
  | cons x xs ih =>
      unfold ssort
      exact (sinsert_perm le x (ssort le xs)).trans (ih.cons x)

theorem sortedSet_nodup (l : List Int) : (SummaryCandidate.sortedSet l).Nodup :=
  ((ssort_perm _ l.dedup).nodup_iff).mpr l.nodup_dedup

theorem sortedSet_mem {l : List Int} {a : Int} : a ∈ SummaryCandidate.sortedSet l ↔ a ∈ l := by
  unfold SummaryCandidate.sortedSet
  rw [mem_ssort, List.mem_dedup]

theorem sortedSet_sorted (l : List Int) : (SummaryCandidate.sortedSet l).Pairwise (· < ·) := by
  have htot : ∀ x y : Int, decide (x ≤ y) = false → decide (y ≤ x) = true := by
    intro x y h
    simp only [decide_eq_false_iff_not, not_le] at h
    simp [le_of_lt h]
  have hch : (SummaryCandidate.sortedSet l).Chain' (fun a b => decide (a ≤ b) = true) :=
    ssort_chain htot l.dedup
  have hle : (SummaryCandidate.sortedSet l).Pairwise (fun a b => a ≤ b) := by
    have := chain_pairwise_of_trans (R := fun a b : Int => decide (a ≤ b) = true)
      (P := fun _ => True)
      (fun x y z _ _ _ h1 h2 => by
        simp only [decide_eq_true_eq] at h1 h2 ⊢
        exact le_trans h1 h2)
      (fun x _ => trivial) hch
    exact this.imp (fun h => by simpa using h)
  exact (hle.and (sortedSet_nodup l)).imp (fun h => lt_of_le_of_ne h.1 h.2)

theorem indexOf_sorted_strict :
    ∀ {l : List Int}, l.Pairwise (· < ·) → ∀ {a : Int}, a ∈ l →
      l.indexOf a = (l.filter (fun p => decide (p < a))).length := by
  intro l
  induction l with
  | nil =>
      intro _ a ha
      cases ha
  | cons b t ih =>
      intro hp a ha
      rcases List.mem_cons.mp ha with hb | hb
      · subst hb
        rw [List.indexOf_cons_self, List.filter_cons]
        have hb2 : decide (a < a) = false := by simp
        rw [hb2]
        simp only [Bool.false_eq_true, if_false]
        have : ∀ p ∈ t, decide (p < a) = false := by
          intro p hp2
          have := (List.pairwise_cons.mp hp).1 p hp2
          simp only [decide_eq_false_iff_not, not_lt]
          exact le_of_lt this
        rw [List.filter_eq_nil.mpr (fun p hp2 => by rw [this p hp2]; exact Bool.false_ne_true)]
        rfl
      · have hba : b < a := (List.pairwise_cons.mp hp).1 a hb
        have hne : b ≠ a := ne_of_lt hba
        rw [List.indexOf_cons_ne _ hne, List.filter_cons]
        have : decide (b < a) = true := by simpa using hba
        rw [this]
        simp only [if_true, List.length_cons]
        rw [ih (List.pairwise_cons.mp hp).2 hb]

theorem enum_filter_fst_length {β : Type} (l : List β) (q : Nat → Bool) :
    (l.enum.filter (fun p => q p.1)).length = ((List.range l.length).filter q).length := by
  have h1 : (List.range l.length).filter q = (l.enum.map Prod.fst).filter q := by
    rw [List.enum_map_fst]
  rw [h1, List.filter_map]
  rw [List.length_map]
  rfl

theorem optTemp_lt {c : SummaryCandidate} {args : SummaryCandidate.OptArgs} :
    ∀ i ∈ SummaryCandidate.optTemp c args, i < c.history.length := by
  have ht0 : ∀ i ∈ (match args.timestamp with
      | some t => (c.history.enum.filter
          (fun p : Nat × SummaryCandidate.State => decide (p.2.timestamp = t))).map
          (fun p : Nat × SummaryCandidate.State => p.1)
      | none => List.range c.history.length), i < c.history.length := by
    cases hts : args.timestamp with
    | none =>
        intro i hi
        exact List.mem_range.mp hi
    | some t =>
        intro i hi
        obtain ⟨p, hp, hpi⟩ := List.mem_map.mp hi
        have hp2 : p.1 ∈ c.history.enum.map Prod.fst :=
          List.mem_map_of_mem Prod.fst (List.mem_of_mem_filter hp)
        rw [List.enum_map_fst] at hp2
        exact hpi ▸ List.mem_range.mp hp2
  intro i hi
  unfold SummaryCandidate.optTemp at hi
  cases hcs : args.constraints with
  | none =>
      simp only [hcs] at hi
      exact ht0 i hi
  | some cs =>
      simp only [hcs] at hi
      exact ht0 i (List.mem_of_mem_filter hi)

theorem clear_history_rank_lt {exceptions : List Int} {sel : Int} {len : Nat}
    (hexc : ∀ e ∈ exceptions, 0 ≤ e) (hsel0 : 0 ≤ sel) (hsellen : sel < (len : Int)) :
    (SummaryCandidate.sortedSet (exceptions ++ [sel])).indexOf sel <
      ((List.range len).filter
        (fun i : Nat => decide ((i : Int) ∈ SummaryCandidate.sortedSet (exceptions ++ [sel])))).length := by
  have hmemP : sel ∈ SummaryCandidate.sortedSet (exceptions ++ [sel]) :=
    sortedSet_mem.mpr (by simp)
  have hnn : ∀ p ∈ SummaryCandidate.sortedSet (exceptions ++ [sel]), 0 ≤ p := by
    intro p hp
    rcases List.mem_append.mp (sortedSet_mem.mp hp) with h | h
    · exact hexc p h
    · simp only [List.mem_singleton] at h
      omega
  have hsorted := sortedSet_sorted (exceptions ++ [sel])
  have hnd := sortedSet_nodup (exceptions ++ [sel])
  rw [indexOf_sorted_strict hsorted hmemP]
  have hS : List.Subperm
      (((SummaryCandidate.sortedSet (exceptions ++ [sel])).filter
        (fun p => decide (p < sel))).map Int.toNat ++ [sel.toNat])
      ((List.range len).filter
        (fun i : Nat => decide ((i : Int) ∈ SummaryCandidate.sortedSet (exceptions ++ [sel])))) := by
    apply List.Nodup.subperm
    · rw [List.nodup_append]
      refine ⟨?_, List.nodup_singleton _, ?_⟩
      · refine List.Nodup.map_on ?_ (hnd.filter _)
        intro x hx y hy hxy
        have hx0 : 0 ≤ x := hnn x (List.mem_of_mem_filter hx)
        have hy0 : 0 ≤ y := hnn y (List.mem_of_mem_filter hy)
        omega
      · intro a ha hb
        simp only [List.mem_singleton] at hb
        obtain ⟨p, hp, hpt⟩ := List.mem_map.mp ha
        have hp0 : 0 ≤ p := hnn p (List.mem_of_mem_filter hp)
        have hps : p < sel := by simpa using List.of_mem_filter hp
        omega
    · intro i hi
      rw [List.mem_filter, List.mem_range]
      rcases List.mem_append.mp hi with hi | hi
      · obtain ⟨p, hp, hpt⟩ := List.mem_map.mp hi
        have hp0 : 0 ≤ p := hnn p (List.mem_of_mem_filter hp)
        have hps : p < sel := by simpa using List.of_mem_filter hp
        have hpP := List.mem_of_mem_filter hp
        have hcast : (i : Int) = p := by omega
        refine ⟨by omega, ?_⟩
        simp only [decide_eq_true_eq]
        rw [hcast]
        exact hpP
      · simp only [List.mem_singleton] at hi
        subst hi
        refine ⟨by omega, ?_⟩
        simp only [decide_eq_true_eq]
        rw [Int.toNat_of_nonneg hsel0]
        exact hmemP
  have hlen := hS.length_le
  simp only [List.length_append, List.length_map, List.length_cons, List.length_nil] at hlen
  omega

/-- Candidate for the clear_history counterexample: two states, the second
one selected. -/
def c9cand : SummaryCandidate :=
  ⟨0, some 1, [⟨[0], ⟨0, 1⟩, [], 0, ⟨0, 1⟩⟩, ⟨[1], ⟨0, 1⟩, [], 0, ⟨0, 1⟩⟩], true⟩

/-- Counterexample for C9: `c9cand`'s selection resolves to a valid entry,
but `clear_history` with the negative exception `-1` counts `-1` as a
preserved predecessor that keeps no entry, so the remapped selected index 1
is out of bounds for the one-entry shrunk history and the selection no
longer resolves. -/
theorem clear_history_validity_cex :
    c9cand.contextE = Except.ok ⟨[1], ⟨0, 1⟩, [], 0, ⟨0, 1⟩⟩ ∧
    SummaryCandidate.clear_history c9cand [-1] =
      Except.ok ⟨0, some 1, [⟨[1], ⟨0, 1⟩, [], 0, ⟨0, 1⟩⟩], true⟩ ∧
    (SummaryCandidate.mk 0 (some 1) [⟨[1], ⟨0, 1⟩, [], 0, ⟨0, 1⟩⟩] true).contextE =
      Except.error PyErr.indexError := by
  refine ⟨by decide, by decide, by decide⟩

theorem pyIdx_neg_one {len : Nat} (h : 1 ≤ len) : pyIdx len (-1) = some (len - 1) := by
  unfold pyIdx
  rw [if_neg (by omega), if_pos (by omega)]
  congr 1
  omega

theorem pyIdx_nat {len r : Nat} (h : r < len) : pyIdx len ((r : Nat) : Int) = some r := by
  unfold pyIdx
  rw [if_pos (Int.natCast_nonneg r), if_pos (by exact_mod_cast h), Int.toNat_natCast]

theorem pyIdx_nonneg_lt {len : Nat} {i : Int} {j : Nat} (h0 : 0 ≤ i)
    (h : pyIdx len i = some j) : i < (len : Int) := by
  unfold pyIdx at h
  rw [if_pos h0] at h
  by_cases h2 : i < (len : Int)
  · exact h2
  · rw [if_neg h2] at h
    exact Option.noConfusion h

theorem pyIdx_some_pos {len : Nat} {i : Int} {j : Nat} (hneg : i < 0)
    (h : pyIdx len i = some j) : 1 ≤ len := by
  unfold pyIdx at h
  rw [if_neg (by omega)] at h
  by_cases h2 : (0 : Int) ≤ i + (len : Int)
  · omega
  · rw [if_neg h2] at h
    exact Option.noConfusion h

theorem clear_history_ok (c : SummaryCandidate) (exceptions : List Int) (sel : Int) (j : Nat)
    (hsel : c.selected_state = some sel) (hj : pyIdx c.history.length sel = some j)
    (hexc : ∀ e ∈ exceptions, 0 ≤ e) (hcase : 0 ≤ sel ∨ sel = -1) :
    ∃ c2 s2 j2, SummaryCandidate.clear_history c exceptions = Except.ok c2 ∧
      c2.selected_state = some s2 ∧ pyIdx c2.history.length s2 = some j2 := by
  rcases hcase with hge | hm1
  · have hlt : sel < (c.history.length : Int) := pyIdx_nonneg_lt hge hj
    have hne : ¬(sel = -1) := by omega
    have hmemP : sel ∈ SummaryCandidate.sortedSet (exceptions ++ [sel]) :=
      sortedSet_mem.mpr (by simp)
    have hr := clear_history_rank_lt hexc hge hlt
    have hlen1 : ((c.history.enum.filter
        (fun p => decide ((p.1 : Int) ∈ SummaryCandidate.sortedSet (exceptions ++ [sel])))).map
        (fun p => p.2)).length =
        ((List.range c.history.length).filter
          (fun i : Nat => decide ((i : Int) ∈
            SummaryCandidate.sortedSet (exceptions ++ [sel])))).length := by
      rw [List.length_map]
      exact enum_filter_fst_length c.history
        (fun i : Nat => decide ((i : Int) ∈ SummaryCandidate.sortedSet (exceptions ++ [sel])))
    refine ⟨{ c with
        history := (c.history.enum.filter
          (fun p => decide ((p.1 : Int) ∈
            SummaryCandidate.sortedSet (exceptions ++ [sel])))).map (fun p => p.2),
        selected_state :=
          some (((SummaryCandidate.sortedSet (exceptions ++ [sel])).indexOf sel : Nat) : Int) },
      (((SummaryCandidate.sortedSet (exceptions ++ [sel])).indexOf sel : Nat) : Int),
      (SummaryCandidate.sortedSet (exceptions ++ [sel])).indexOf sel, ?_, rfl, ?_⟩
    · unfold SummaryCandidate.clear_history
      simp only [hsel, if_neg hne, if_pos hmemP]
      rfl
    · have hfin : (SummaryCandidate.sortedSet (exceptions ++ [sel])).indexOf sel <
          ((c.history.enum.filter
            (fun p => decide ((p.1 : Int) ∈
              SummaryCandidate.sortedSet (exceptions ++ [sel])))).map (fun p => p.2)).length := by
        rw [hlen1]
        exact hr
      exact pyIdx_nat hfin
  · subst hm1
    have hlen : 1 ≤ c.history.length := pyIdx_some_pos (by omega) hj
    have hmem2 : (c.history.length - 1) ∈ (List.range c.history.length).filter
        (fun i : Nat => decide ((i : Int) ∈
          SummaryCandidate.sortedSet (exceptions ++ [(c.history.length : Int) - 1]))) := by
      rw [List.mem_filter, List.mem_range]
      refine ⟨by omega, ?_⟩
      simp only [decide_eq_true_eq]
      refine sortedSet_mem.mpr (List.mem_append.mpr (Or.inr ?_))
      simp only [List.mem_singleton]
      omega
    have hpos : 0 < ((c.history.enum.filter
        (fun p => decide ((p.1 : Int) ∈
          SummaryCandidate.sortedSet (exceptions ++ [(c.history.length : Int) - 1])))).map
        (fun p => p.2)).length := by
      rw [List.length_map, enum_filter_fst_length c.history
        (fun i : Nat => decide ((i : Int) ∈
          SummaryCandidate.sortedSet (exceptions ++ [(c.history.length : Int) - 1])))]
      exact List.length_pos.mpr (List.ne_nil_of_mem hmem2)
    refine ⟨{ c with
        history := (c.history.enum.filter
          (fun p => decide ((p.1 : Int) ∈
            SummaryCandidate.sortedSet (exceptions ++ [(c.history.length : Int) - 1])))).map
          (fun p => p.2),
        selected_state := some (-1) }, -1,
      ((c.history.enum.filter
        (fun p => decide ((p.1 : Int) ∈
          SummaryCandidate.sortedSet (exceptions ++ [(c.history.length : Int) - 1])))).map
        (fun p => p.2)).length - 1, ?_, rfl, ?_⟩
    · unfold SummaryCandidate.clear_history
      simp only [hsel, if_pos (show (-1 : Int) = -1 from rfl)]
      rfl
    · exact pyIdx_neg_one hpos

theorem clear_timestamp_ok (c : SummaryCandidate) (t : Int) (sel : Int)
    (hsel : c.selected_state = some sel) {ctx : SummaryCandidate.State}
    (hctx : c.contextE = Except.ok ctx) (hts : ctx.timestamp ≠ t) :
    ∃ c2 s2 j2, SummaryCandidate.clear_timestamp c t = Except.ok c2 ∧
      c2.selected_state = some s2 ∧ pyIdx c2.history.length s2 = some j2 := by
  have hmem : ctx ∈ c.history := by
    obtain ⟨i2, j2, hi2, hj2, hg2⟩ := contextE_elim hctx
    exact List.get?_mem hg2
  have hmemf : ctx ∈ c.history.filter (fun s => !(decide (s.timestamp = t))) := by
    rw [List.mem_filter]
    refine ⟨hmem, ?_⟩
    simp [hts]
  have hpos : 0 < (c.history.filter (fun s => !(decide (s.timestamp = t)))).length :=
    List.length_pos.mpr (List.ne_nil_of_mem hmemf)
  by_cases hm1 : sel = -1
  · subst hm1
    have hb : ((c.selected_state == some (-1 : Int))) = true := by
      rw [hsel]
      rfl
    refine ⟨{ c with
        history := c.history.filter (fun s => !(decide (s.timestamp = t))),
        selected_state := some (-1) }, -1,
      (c.history.filter (fun s => !(decide (s.timestamp = t)))).length - 1, ?_, rfl, ?_⟩
    · unfold SummaryCandidate.clear_timestamp
      simp only [hctx, Except.bind, bind, if_neg hts, hb, if_true, eq_self_iff_true,
        pure, Except.pure]
    · exact pyIdx_neg_one hpos
  · have hb : ((some sel == some (-1 : Int))) = false := by
      simp only [beq_eq_false_iff_ne, ne_eq, Option.some.injEq]
      exact hm1
    refine ⟨{ c with
        history := c.history.filter (fun s => !(decide (s.timestamp = t))),
        selected_state := some (max 0 (min (sel -
            (((c.history.enum.filter (fun p => decide (p.2.timestamp = t) &&
              decide ((p.1 : Int) < sel))).length : Int)))
          (((c.history.filter (fun s => !(decide (s.timestamp = t)))).length : Int) - 1))) },
      max 0 (min (sel -
          (((c.history.enum.filter (fun p => decide (p.2.timestamp = t) &&
            decide ((p.1 : Int) < sel))).length : Int)))
        (((c.history.filter (fun s => !(decide (s.timestamp = t)))).length : Int) - 1)),
      (max 0 (min (sel -
          (((c.history.enum.filter (fun p => decide (p.2.timestamp = t) &&
            decide ((p.1 : Int) < sel))).length : Int)))
        (((c.history.filter (fun s => !(decide (s.timestamp = t)))).length : Int) - 1))).toNat,
      ?_, rfl, ?_⟩
    · unfold SummaryCandidate.clear_timestamp
      simp only [hctx, Except.bind, bind, if_neg hts, hb, Bool.false_eq_true, if_false,
        hsel, orErr, pure, Except.pure]
    · have h1 : (1 : Int) ≤
          ((c.history.filter (fun s => !(decide (s.timestamp = t)))).length : Int) := by
        exact_mod_cast hpos
      have hX : min (sel -
            (((c.history.enum.filter (fun p => decide (p.2.timestamp = t) &&
              decide ((p.1 : Int) < sel))).length : Int)))
          (((c.history.filter (fun s => !(decide (s.timestamp = t)))).length : Int) - 1) ≤
          ((c.history.filter (fun s => !(decide (s.timestamp = t)))).length : Int) - 1 :=
        min_le_right _ _
      dsimp only
      unfold pyIdx
      rw [if_pos (le_max_left 0 _), if_pos (max_lt_iff.mpr
        ⟨by omega, lt_of_le_of_lt hX (by omega)⟩)]

theorem optimize_sel_ok (c : SummaryCandidate) (args : SummaryCandidate.OptArgs)
    (sel : Int) (j : Nat)
    (hsel : c.selected_state = some sel) (hj : pyIdx c.history.length sel = some j)
    (hwf : ∀ s ∈ c.history, 0 < s.improvement_score.den) (hthr : 0 < args.threshold.den) :
    ∃ c2 r s2 j2, SummaryCandidate.optimize c args = Except.ok (c2, r) ∧
      c2.selected_state = some s2 ∧ pyIdx c2.history.length s2 = some j2 := by
  obtain ⟨c2, r, hok, hhist, hcases⟩ := optimize_run c args sel j hsel hj hwf hthr
  rcases hcases with ⟨htemp, hr, hsel2, hexp⟩ | ⟨m, hr, hsel2, hmem, hmax, hexp⟩
  · refine ⟨c2, r, sel, j, hok, hsel2, ?_⟩
    rw [hhist, updAt_length]
    exact hj
  · refine ⟨c2, r, ((m : Nat) : Int), m, hok, hsel2, ?_⟩
    have hmlt : m < c.history.length := optTemp_lt m hmem
    rw [hhist, updAt_length]
    exact pyIdx_nat hmlt

/-- C9 (amended): for a candidate whose selection resolves to an entry of
its history, the selection still resolves after `clear_history` provided the
raw stored index is non-negative or the `-1` sentinel and every exception
index is non-negative (a negative exception — or a negative non-sentinel
stored index — is counted as a preserved predecessor that keeps no entry and
breaks the remapping, see the counterexample), after `clear_timestamp` under
its precondition that the selected state's timestamp differs from the
cleared one (the selected entry survives, and the new index is clamped into
the shrunk history), and after `optimize` on well-formed densities (the new
selection is either the unchanged old one or a filtered in-range index). -/
theorem selected_state_validity (c : SummaryCandidate) (sel : Int) (j : Nat)
    (hsel : c.selected_state = some sel) (hj : pyIdx c.history.length sel = some j) :
    (∀ exceptions : List Int, (∀ e ∈ exceptions, 0 ≤ e) → (0 ≤ sel ∨ sel = -1) →
      ∃ c2 s2 j2, SummaryCandidate.clear_history c exceptions = Except.ok c2 ∧
        c2.selected_state = some s2 ∧ pyIdx c2.history.length s2 = some j2) ∧
    (∀ t : Int, ∀ ctx : SummaryCandidate.State, c.contextE = Except.ok ctx →
      ctx.timestamp ≠ t →
      ∃ c2 s2 j2, SummaryCandidate.clear_timestamp c t = Except.ok c2 ∧
        c2.selected_state = some s2 ∧ pyIdx c2.history.length s2 = some j2) ∧
    (∀ args : SummaryCandidate.OptArgs,
      (∀ s ∈ c.history, 0 < s.improvement_score.den) → 0 < args.threshold.den →
      ∃ c2 r s2 j2, SummaryCandidate.optimize c args = Except.ok (c2, r) ∧
        c2.selected_state = some s2 ∧ pyIdx c2.history.length s2 = some j2) := by
  refine ⟨?_, ?_, ?_⟩
  · intro exceptions hexc hcase
    exact clear_history_ok c exceptions sel j hsel hj hexc hcase
  · intro t ctx hctx hts
    exact clear_timestamp_ok c t sel hsel hctx hts
  · intro args hwf hthr
    exact optimize_sel_ok c args sel j hsel hj hwf hthr

theorem selected_state_validity_witness :
    (∃ c2 s2 j2, SummaryCandidate.clear_history c9cand [] = Except.ok c2 ∧
      c2.selected_state = some s2 ∧ pyIdx c2.history.length s2 = some j2) ∧
    (∃ c2 s2 j2, SummaryCandidate.clear_timestamp c9cand 5 = Except.ok c2 ∧
      c2.selected_state = some s2 ∧ pyIdx c2.history.length s2 = some j2) ∧
    (∃ c2 r s2 j2, SummaryCandidate.optimize c9cand SummaryCandidate.OptArgs.dflt =
        Except.ok (c2, r) ∧
      c2.selected_state = some s2 ∧ pyIdx c2.history.length s2 = some j2) := by
  refine ⟨?_, ?_, ?_⟩
  · exact (selected_state_validity c9cand 1 1 rfl (by decide)).1 []
      (by intro e he; cases he) (Or.inl (by decide))
  · exact (selected_state_validity c9cand 1 1 rfl (by decide)).2.1 5
      ⟨[1], ⟨0, 1⟩, [], 0, ⟨0, 1⟩⟩ (by decide) (by decide)
  · exact (selected_state_validity c9cand 1 1 rfl (by decide)).2.2
      SummaryCandidate.OptArgs.dflt (by decide) (by decide)
